import Mathlib

/-!
Verification development for the irancrypto-social-bot repository.

The Lean definitions below are a shallow embedding of the JavaScript
source: pure functions become Lean functions, the DynamoDB store becomes
an explicit association list keyed by the partition key `id`, thrown
exceptions become `Except` values, and JavaScript numbers in the places
the claims touch are modelled as `ℚ` (timestamps, which are integral, as
`ℕ` or `ℤ`).  Strings are modelled as `List Char` where character-level
scanning matters and as `String` elsewhere.
-/

namespace IranCrypto

/-! ## JSON-like payload values (market data snapshots)

The payload handed to `schedulePost` is the parsed JSON body returned by
the market-data API (`src/src/api.js`).  JavaScript numbers are modelled
as rationals. -/

inductive JsonVal where
  | num (q : ℚ)
  | str (s : String)
  | boolean (b : Bool)
  | null
  | arr (l : List JsonVal)
  | obj (l : List (String × JsonVal))

/-- Number.MAX_SAFE_INTEGER. -/
def maxSafeInteger : ℚ := 9007199254740991

mutual

/-- Embeds `convertLargeNumbersToString` from `src/src/dynamodb.js`
(the queue-store module).  A non-object (its `typeof` is not
`"object"`) is returned unchanged — so a bare number, even a large
one, passes through.  Arrays map the conversion over their elements;
objects are rebuilt key by key, and only there a number strictly above
`Number.MAX_SAFE_INTEGER` is replaced by its decimal string (the `Rat`
printer models `Number.prototype.toString`, which agrees with it on
the integral values below 1e21 that occur here). -/
def convertLargeNumbersToString : JsonVal → JsonVal
  | .num q => .num q
  | .str s => .str s
  | .boolean b => .boolean b
  | .null => .null
  | .arr l => .arr (convertLargeList l)
  | .obj l => .obj (convertLargeObj l)

/-- Recursive helper of `convertLargeNumbersToString` for arrays
(`obj.map(convertLargeNumbersToString)` in the source). -/
def convertLargeList : List JsonVal → List JsonVal
  | [] => []
  | v :: rest => convertLargeNumbersToString v :: convertLargeList rest

/-- Recursive helper of `convertLargeNumbersToString` for objects (the
`Object.keys(obj).reduce` branch in the source): a large number value
becomes a string, an object or array value is converted recursively,
anything else is kept. -/
def convertLargeObj : List (String × JsonVal) → List (String × JsonVal)
  | [] => []
  | (k, .num q) :: rest =>
    (k, if q > maxSafeInteger then .str (toString q) else .num q) :: convertLargeObj rest
  | (k, v) :: rest => (k, convertLargeNumbersToString v) :: convertLargeObj rest

end

/-! ## The DynamoDB table (Persisted Queue Store)

`src/src/dynamodb.js` (imported as `env.js` in the concatenated
sources) stores four kinds of records in a single table keyed by `id`:
scheduled posts (`post-{platform}-{target}`), the Twitter credential
record (`id = "twitter"`), the Instagram session record
(`id = "instagram"`) and run markers (`id = "last-run-..."`).  Every
record written by the code carries a `timestamp` attribute, so
`attribute_exists(#ts)` in the due-scan filter is satisfied by all of
them; what distinguishes them is the scale of the value. -/

inductive Item where
  | post (platform target : String) (data : JsonVal) (timestamp : ℕ)
  | twitterCred (accessToken refreshToken : String) (expiresIn : ℕ) (timestamp : ℕ)
  | instagramCred (session : String) (timestamp : ℕ)
  | runMarker (subject : String) (timestamp : ℕ)

/-- Value of the `timestamp` attribute of a record.  Scheduled posts
carry a unix time in seconds (`moment(...).unix()`); the other three
record kinds carry `Date.now()`, i.e. milliseconds. -/
def Item.ts : Item → ℕ
  | .post _ _ _ t => t
  | .twitterCred _ _ _ t => t
  | .instagramCred _ t => t
  | .runMarker _ t => t

/-- The scheduled-post record kind (has `platform`, `target`, `data`). -/
def Item.isPost : Item → Bool
  | .post _ _ _ _ => true
  | _ => false

/-- The table: an association list from the partition key `id` to the
record stored under it.  DynamoDB guarantees at most one record per key;
stores built by the operations below keep the key list duplicate-free. -/
abbrev Store := List (String × Item)

/-- DynamoDB `PutCommand`: upsert by key — an existing record under the
same `id` is overwritten, otherwise the record is appended. -/
def putItem (s : Store) (k : String) (v : Item) : Store :=
  if s.any (fun e => e.1 = k) then
    s.map (fun e => if e.1 = k then (k, v) else e)
  else
    s ++ [(k, v)]

/-- DynamoDB `DeleteCommand`: remove the record under the key. -/
def deleteItem (s : Store) (k : String) : Store :=
  s.filter (fun e => ¬ e.1 = k)

/-- DynamoDB `GetCommand`: look the key up. -/
def getItem (s : Store) (k : String) : Option Item :=
  (s.find? (fun e => e.1 = k)).map (fun e => e.2)

/-- Composite key of a scheduled post: `` `post-${platform}-${target}` ``. -/
def postKey (platform target : String) : String :=
  "post-" ++ platform ++ "-" ++ target

/-- Embeds `schedulePost(platform, target, data, timestamp)` from the
queue-store module: large numbers in the payload are stringified, then
the item is `Put` under the deterministic key `post-{platform}-{target}`
with fields `platform`, `target`, `data`, `timestamp`. -/
def schedulePost (s : Store) (platform target : String) (data : JsonVal)
    (timestamp : ℕ) : Store :=
  putItem s (postKey platform target)
    (.post platform target (convertLargeNumbersToString data) timestamp)

/-- Embeds `updateTwitter($data)`: the credential record is `Put` under
the fixed key `"twitter"` with `timestamp: Date.now()` — `nowMs` is that
millisecond clock reading. -/
def updateTwitter (s : Store) (accessToken refreshToken : String)
    (expiresIn : ℕ) (nowMs : ℕ) : Store :=
  putItem s "twitter" (.twitterCred accessToken refreshToken expiresIn nowMs)

/-- Embeds `updateInstagram($data)`: the session record is `Put` under
the fixed key `"instagram"` with `timestamp: Date.now()`. -/
def updateInstagram (s : Store) (session : String) (nowMs : ℕ) : Store :=
  putItem s "instagram" (.instagramCred session nowMs)

/-- Embeds `getScheduledPosts()`: a table `Scan` with filter
`attribute_exists(#ts) AND #ts <= :now` where `:now` is
`Math.floor(Date.now() / 1000)`, the current time in whole seconds.
Every record written by this code has a `timestamp` attribute, so the
`attribute_exists` conjunct holds for each item and the scan reduces to
the numeric comparison. -/
def getScheduledPosts (s : Store) (nowMs : ℕ) : List Item :=
  (s.map (fun e => e.2)).filter (fun it => it.ts ≤ nowMs / 1000)

/-- Embeds `removeScheduledPost(platform, target)`: delete by the
deterministic post key. -/
def removeScheduledPost (s : Store) (platform target : String) : Store :=
  deleteItem s (postKey platform target)

/-! ## Market-data API client (`src/src/api.js`)

The network layer is outside the embedding; what the claims touch is
the client-side parameter validation of `getRecap`, which throws before
any request is issued.  Thrown `Error`s become tagged `ApiError`s. -/

inductive ApiError where
  | invalidType (t : String)
  | invalidInterval (i : String)
deriving DecidableEq

/-- Request descriptor produced when validation passes: the endpoint
name together with its query parameters. -/
structure ApiRequest where
  method : String
  params : List (String × String)
deriving DecidableEq

def validTypes : List String := ["exchange", "coin"]

def validIntervals : List String := ["weekly", "monthly"]

/-- Embeds the validation prefix of `getRecap(type, interval)`: the type
must be in `validTypes` and the interval in `validIntervals`, otherwise
an invalid-parameter error is thrown; only then is
`request("recap", { type, interval, limit: 50 })` issued. -/
def getRecap (type interval : String) : Except ApiError ApiRequest :=
  if ¬ validTypes.contains type then
    .error (.invalidType type)
  else if ¬ validIntervals.contains interval then
    .error (.invalidInterval interval)
  else
    .ok ⟨"recap", [("type", type), ("interval", interval), ("limit", "50")]⟩

/-! ## Scheduler (`src/scheduler.js`)

The `midnight` handler runs the content families strictly in sequence
with `await` and no `try`/`catch`:

```
await scheduleDailyRecap();
await scheduleDailyPopular();
if (friday)    await scheduleWeeklyRecap();
if (lastDay)   await scheduleMonthlyRecap();
```

Each family fetches its market data and, when the result is truthy,
writes `schedulePost` entries.  A rejected fetch therefore propagates
out of `midnight` immediately.  The embedding threads an explicit trace
(`MidnightRun`) recording which families were attempted, which
`schedulePost` calls were issued, and the first uncaught error. -/

inductive Family where
  | dailyRecap
  | dailyPopular
  | weeklyRecap
  | monthlyRecap
deriving DecidableEq

/-- One `schedulePost(platform, target, data, timestamp)` call issued by
the Scheduler. -/
structure Call where
  platform : String
  target : String
  data : JsonVal
  timestamp : ℕ

/-- Environment of one `midnight` run: the outcome of each family's
market-data fetch (`.error` = the fetch rejected; `.ok none` = it
resolved to a falsy value, so `if (data)` skips the family; `.ok (some
d)` = usable data), the unix second returned by
`getNextScheduleTime(9).unix()` (9 AM tomorrow in the configured
timezone), and the two calendar gates. -/
structure SchedEnv where
  fetchDailyRecap : Except String (Option JsonVal)
  fetchPopular : Except String (Option JsonVal)
  fetchWeeklyRecap : Except String (Option JsonVal)
  fetchMonthlyRecap : Except String (Option JsonVal)
  t9 : ℕ
  isFriday : Bool
  isLastDayOfMonth : Bool

/-- Fetch outcome of a family: `scheduleDailyRecap` calls
`getRecap("coin","daily")`, `scheduleDailyPopular` calls `getPopular()`,
`scheduleWeeklyRecap` calls `getRecap("coin","weekly")` and
`scheduleMonthlyRecap` calls `getRecap("exchange","monthly")`. -/
def SchedEnv.fetch (env : SchedEnv) : Family → Except String (Option JsonVal)
  | .dailyRecap => env.fetchDailyRecap
  | .dailyPopular => env.fetchPopular
  | .weeklyRecap => env.fetchWeeklyRecap
  | .monthlyRecap => env.fetchMonthlyRecap

/-- The `schedulePost` calls a family issues for fetched data `d`:
the daily recap posts to Telegram at 9 AM, the popular family posts
`trends` at 9 AM and `vol` one hour later (`scheduleTime.add(1,
'hour')`), the weekly and monthly recaps post to Instagram at 9 AM. -/
def familyCalls (env : SchedEnv) (d : JsonVal) : Family → List Call
  | .dailyRecap => [⟨"telegram", "dailyrecap", d, env.t9⟩]
  | .dailyPopular => [⟨"twitter", "trends", d, env.t9⟩, ⟨"twitter", "vol", d, env.t9 + 3600⟩]
  | .weeklyRecap => [⟨"instagram", "weekly-coin", d, env.t9⟩]
  | .monthlyRecap => [⟨"instagram", "monthly-exchange", d, env.t9⟩]

/-- Trace of one `midnight` run: the families whose fetch was started,
the `schedulePost` calls issued, and the error that escaped the handler
(if any). -/
structure MidnightRun where
  attempts : List Family
  calls : List Call
  err : Option String

/-- Runs one family inside `midnight`.  Because the handler has no
`try`/`catch`, an error recorded by an earlier family short-circuits
every later family (`await` rethrows): nothing further is attempted. -/
def runFamily (env : SchedEnv) (acc : MidnightRun) (fam : Family) : MidnightRun :=
  if acc.err.isSome then acc
  else
    match env.fetch fam with
    | .error e => ⟨acc.attempts ++ [fam], acc.calls, some e⟩
    | .ok none => ⟨acc.attempts ++ [fam], acc.calls, none⟩
    | .ok (some d) => ⟨acc.attempts ++ [fam], acc.calls ++ familyCalls env d fam, none⟩

/-- The families `midnight` runs, in source order: daily recap, daily
popular, weekly recap only on Fridays (`moment().day() === 5`), monthly
recap only on the last day of the month. -/
def enabledFamilies (env : SchedEnv) : List Family :=
  [.dailyRecap, .dailyPopular]
    ++ (if env.isFriday then [.weeklyRecap] else [])
    ++ (if env.isLastDayOfMonth then [.monthlyRecap] else [])

/-- Embeds the `midnight` handler of `src/scheduler.js`. -/
def midnight (env : SchedEnv) : MidnightRun :=
  (enabledFamilies env).foldl (runFamily env) ⟨[], [], none⟩

/-! ## Poster (`src/src/dynamodb.js` lines 113–167: the delivery handler)

The handler scans the store for due posts and loops over them; each
iteration has its own `try`/`catch`, publishes by platform
(`makeTweet`/`makeInstagram`/`makeTelegram`) and deletes the entry via
`removeScheduledPost` only when the publish call returned.  A thrown
error is logged/captured and the loop continues with the next entry.
`switch (platform.toLowerCase())` has no default case: an unknown
platform publishes nothing and still reaches the delete. -/

structure PostEntry where
  platform : String
  target : String
  data : JsonVal
  timestamp : ℕ

/-- Environment of one delivery cycle: the outcome of each platform
publish routine on a given target and payload. -/
structure PosterEnv where
  makeTweet : String → JsonVal → Except String Unit
  makeInstagram : String → JsonVal → Except String Unit
  makeTelegram : String → JsonVal → Except String Unit

/-- Models `String.prototype.toLowerCase` character by character (the
platform names are ASCII). -/
def jsToLower (s : String) : String :=
  ⟨s.data.map Char.toLower⟩

/-- The publish call the `switch` dispatches to: `none` when the
platform matches no case (nothing is called, nothing throws). -/
def dispatch (env : PosterEnv) (p : PostEntry) : Option (Except String Unit) :=
  if jsToLower p.platform = "twitter" then some (env.makeTweet p.target p.data)
  else if jsToLower p.platform = "instagram" then some (env.makeInstagram p.target p.data)
  else if jsToLower p.platform = "telegram" then some (env.makeTelegram p.target p.data)
  else none

/-- One loop iteration of the Poster handler: publish, then delete on
success; on a thrown error keep the entry and record the error. -/
def posterStep (env : PosterEnv) (acc : Store × List PostEntry × List String)
    (p : PostEntry) : Store × List PostEntry × List String :=
  match dispatch env p with
  | some (.error e) => (acc.1, acc.2.1 ++ [p], acc.2.2 ++ [e])
  | _ => (removeScheduledPost acc.1 p.platform p.target, acc.2.1 ++ [p], acc.2.2)

/-- Embeds the Poster `handler`: fold the per-entry loop over the due
list, starting from the current store.  Returns the final store, the
entries attempted (in order) and the captured errors. -/
def posterHandler (env : PosterEnv) (posts : List PostEntry) (s : Store) :
    Store × List PostEntry × List String :=
  posts.foldl (posterStep env) (s, [], [])

/-- An entry's publish call succeeded: the dispatch found a matching
platform case and the routine returned without throwing. -/
def publishOk (env : PosterEnv) (p : PostEntry) : Bool :=
  match dispatch env p with
  | some (.ok _) => true
  | _ => false

/-- An entry whose `switch` dispatch does not throw (unknown platforms
included): exactly these entries reach `removeScheduledPost`. -/
def stepDeletes (env : PosterEnv) (p : PostEntry) : Bool :=
  match dispatch env p with
  | some (.error _) => false
  | _ => true

/-! ## Twitter publisher (`src/src/twitter.js`, `init`)

In serverless mode `init` loads the credential record, bootstraps it
from environment variables when the table has none, reuses the stored
access token while `Date.now() - storedData.timestamp <
storedData.expiresIn * 1000` (and `storedData.timestamp` is truthy),
and otherwise refreshes via `refreshOAuth2Token`.  Times are
milliseconds as signed integers, mirroring JavaScript arithmetic. -/

structure TwitterStored where
  accessToken : String
  refreshToken : String
  expiresIn : ℤ
  timestamp : ℤ

/-- Result of `tempClient.refreshOAuth2Token(...)` — the refresh either
rejects, or resolves with new tokens (a missing/empty `refreshToken`
in the result is falsy and makes `init` throw). -/
structure RefreshResult where
  accessToken : String
  refreshToken : String
  expiresIn : ℤ

inductive TwitterAction where
  | first
  | notExpired
  | refreshed
deriving DecidableEq

/-- The token-validity test of `init`:
`storedData?.timestamp && Date.now() - storedData.timestamp <
storedData.expiresIn * 1000`. -/
def tokenStillValid (stored : TwitterStored) (nowMs : ℤ) : Bool :=
  stored.timestamp ≠ 0 ∧ nowMs - stored.timestamp < stored.expiresIn * 1000

/-- Embeds the serverless branch of `init()`: bootstrap on first use
(persisting a conservative `expiresIn: 6000`), reuse while the stored
token is still valid, refresh otherwise — the refresh outcome comes
from the environment (`refresh`), and a refresh result without a truthy
`refreshToken` throws.  Returns the action taken, the access token the
client will use, and the store update performed.  The offline branch,
the missing-environment-variable throws and the outer catch that
re-wraps every error message into `Twitter authentication failed: ...`
are outside the model: errors propagate with their inner values. -/
def twitterInit (stored : Option TwitterStored) (envAccessToken envRefreshToken : String)
    (nowMs : ℤ) (refresh : Except String RefreshResult) :
    Except String (TwitterAction × String × Option TwitterStored) :=
  match stored with
  | none =>
      .ok (.first, envAccessToken, some ⟨envAccessToken, envRefreshToken, 6000, nowMs⟩)
  | some s =>
      if tokenStillValid s nowMs then
        .ok (.notExpired, s.accessToken, none)
      else
        match refresh with
        | .error e => .error e
        | .ok r =>
            if r.refreshToken ≠ "" then
              .ok (.refreshed, r.accessToken, some ⟨r.accessToken, r.refreshToken, r.expiresIn, nowMs⟩)
            else
              .error "Token refresh failed - no refresh token returned"

/-! ## AI provider selection (`src/src/ai/request.js`, the module with
`validatePrimaryProvider`)

Providers are a closed enum; each is gated by the presence of its API
key (`getENV(key, null)` yields `null` when the variable is unset or
empty, so a configured key is never the empty string, but the
truthiness test is kept).  `AI_PROVIDER` optionally forces a primary
provider; that string is looked up in the provider table. -/

inductive Provider where
  | openai
  | openrouter
  | deepseek
  | groq
  | together
deriving DecidableEq

/-- Provider name strings as used for `AI_PROVIDER` and the return
value of `getBestAvailableProvider`. -/
def Provider.name : Provider → String
  | .openai => "openai"
  | .openrouter => "openrouter"
  | .deepseek => "deepseek"
  | .groq => "groq"
  | .together => "together"

/-- Lookup `AI_CONFIG.providers[name]`: an unknown name yields
`undefined` (here `none`). -/
def providerOfString (s : String) : Option Provider :=
  if s = "openai" then some .openai
  else if s = "openrouter" then some .openrouter
  else if s = "deepseek" then some .deepseek
  else if s = "groq" then some .groq
  else if s = "together" then some .together
  else none

structure AIConfig where
  primaryProvider : Option String
  apiKeys : Provider → Option String

inductive AIConfigError where
  | primaryMissingKey (provider : String)
deriving DecidableEq

/-- JavaScript truthiness of `config.apiKey`. -/
def keyTruthy : Option String → Bool
  | some s => s ≠ ""
  | none => false

/-- Embeds `validatePrimaryProvider()`: when `AI_PROVIDER` is set, its
provider entry must exist and its API key must be truthy, otherwise a
configuration error is thrown naming the provider. -/
def validatePrimaryProvider (cfg : AIConfig) : Except AIConfigError Unit :=
  match cfg.primaryProvider with
  | none => .ok ()
  | some p =>
      match providerOfString p with
      | none => .error (.primaryMissingKey p)
      | some prov =>
          if keyTruthy (cfg.apiKeys prov) then .ok ()
          else .error (.primaryMissingKey p)

/-- The fixed priority order of the fallback loop. -/
def priorityList : List Provider :=
  [.openai, .openrouter, .deepseek, .groq, .together]

/-- Embeds `getBestAvailableProvider()`: validate the forced primary
first (rethrowing its configuration error), return it when set,
otherwise return the first provider in priority order with a truthy
key, or `null` when none has one. -/
def getBestAvailableProvider (cfg : AIConfig) : Except AIConfigError (Option String) := do
  _ ← validatePrimaryProvider cfg
  match cfg.primaryProvider with
  | some p => pure (some p)
  | none =>
      pure ((priorityList.find? (fun prov => keyTruthy (cfg.apiKeys prov))).map Provider.name)

/-! ## Number abbreviation (`src/src/number.js`)

JavaScript numbers are modelled as rationals; `toFixed` is modelled for
the non-negative values the function can reach (every tier quotient is
≥ 1), rounding half-up — it agrees with `Number.prototype.toFixed` on
exactly representable values such as the ones below. -/

structure SIPrefix where
  value : ℚ
  symbol : String
  long : String

def SI_PREFIXES : List SIPrefix :=
  [⟨1, "", ""⟩,
   ⟨1000, "K", " Thousand"⟩,
   ⟨1000000, "M", " Million"⟩,
   ⟨1000000000, "B", " Billion"⟩,
   ⟨1000000000000, "t", " Trillion"⟩,
   ⟨1000000000000000, "q", " Quadrillion"⟩,
   ⟨1000000000000000000, "Q", " Quintillion"⟩]

/-- Digits of `n` left-padded with zeros to width `d`. -/
def padDigits (d : ℕ) (n : ℕ) : String :=
  let s := toString n
  String.mk (List.replicate (d - s.length) '0') ++ s

/-- Models `q.toFixed(d)` for `q ≥ 0`: round `q` to `d` decimal places
(half-up) and render with exactly `d` fractional digits. -/
def ratToFixed (q : ℚ) (d : ℕ) : String :=
  let scaled : ℤ := (q * (10 : ℚ) ^ d + 1 / 2).floor
  let n := scaled.toNat
  if d = 0 then toString (n : ℕ)
  else toString (n / 10 ^ d) ++ "." ++ padDigits d (n % 10 ^ d)

/-- Outcome of `abbreviateNumber`: the early return of the number `0`
itself, a finished string, or the `TypeError` thrown when the tier
lookup produced `undefined` (`.pop()` on an empty filter result) and
`tier.value` is dereferenced. -/
inductive AbbrevResult where
  | numResult (q : ℚ)
  | strResult (s : String)
  | typeError
deriving DecidableEq

/-- Embeds `abbreviateNumber(number, decimal = 1, long = false)`:
return `0` unchanged; otherwise take the last SI tier whose `value` is
`≤ number` and render `(number / tier.value).toFixed(decimal)` plus the
tier suffix; when no tier qualifies the lookup is `undefined` and the
call throws. -/
def abbreviateNumber (number : ℚ) (decimal : ℕ := 1) (long : Bool := false) :
    AbbrevResult :=
  if number = 0 then .numResult number
  else
    match (SI_PREFIXES.filter (fun t => t.value ≤ number)).getLast? with
    | none => .typeError
    | some tier =>
        .strResult (ratToFixed (number / tier.value) decimal
          ++ (if long then tier.long else tier.symbol))

/-! ## Text post-processing utilities (the `formatContent` module)

`formatContent(content, options)` cleans AI output for social media:
decode escaped line breaks, trim and strip wrapping quotes, strip
paired markdown markers and headers, normalize line-break style,
collapse excessive whitespace, optionally keep the first block,
optionally space hashtag blocks, optionally truncate.  Content is
modelled as `List Char`; regex passes become explicit scanners.  The
`lineBreak` option is one of the two documented styles. -/

inductive LineBreakStyle where
  | lf
  | crlf
deriving DecidableEq

def breakChars : LineBreakStyle → List Char
  | .lf => ['\n']
  | .crlf => ['\r', '\n']

def doubleBreak (st : LineBreakStyle) : List Char :=
  breakChars st ++ breakChars st

def tripleBreak (st : LineBreakStyle) : List Char :=
  breakChars st ++ breakChars st ++ breakChars st

/-- The apostrophe character (U+0027). -/
def squote : Char := Char.ofNat 39

/-- The backquote character (U+0060). -/
def bquote : Char := Char.ofNat 96

/-- JavaScript whitespace (the class `\s`, which is also the set
`String.prototype.trim` removes): space, tab, line terminators, form
feed, vertical tab and the Unicode space separators. -/
def isJsSpace (c : Char) : Bool :=
  c = ' ' || c = '\t' || c = '\n' || c = '\r' || c = '\u000B' || c = '\u000C' ||
  c = '\u00A0' || c = '\u1680' || ('\u2000' ≤ c && c ≤ '\u200A') ||
  c = '\u2028' || c = '\u2029' || c = '\u202F' || c = '\u205F' ||
  c = '\u3000' || c = '\uFEFF'

/-- The class `[ \t]` of the whitespace-collapsing regexes. -/
def isST (c : Char) : Bool :=
  c = ' ' || c = '\t'

/-- Line terminators recognized by the `m` flag of JavaScript regexes. -/
def isLineTermJS (c : Char) : Bool :=
  c = '\n' || c = '\r' || c = '\u2028' || c = '\u2029'

/-- The class `\w` (`[A-Za-z0-9_]`) used by the hashtag regex. -/
def isWordChar (c : Char) : Bool :=
  c.isAlphanum || c = '_'

/-- Models `String.prototype.trim`. -/
def jsTrim (l : List Char) : List Char :=
  ((l.dropWhile isJsSpace).reverse.dropWhile isJsSpace).reverse

/-- Models `String.prototype.trimEnd`. -/
def jsTrimEnd (l : List Char) : List Char :=
  (l.reverse.dropWhile isJsSpace).reverse

/-- Step 1a of `formatContent`: `content.replace(/\\r\\n/g, "\r\n")` —
the four-character escape sequence becomes a CR LF pair. -/
def decodeEscapedCRLF : List Char → List Char
  | '\\' :: 'r' :: '\\' :: 'n' :: rest => '\r' :: '\n' :: decodeEscapedCRLF rest
  | c :: rest => c :: decodeEscapedCRLF rest
  | [] => []

/-- Step 1b of `formatContent`: `content.replace(/\\n/g, "\n")`. -/
def decodeEscapedLF : List Char → List Char
  | '\\' :: 'n' :: rest => '\n' :: decodeEscapedLF rest
  | c :: rest => c :: decodeEscapedLF rest
  | [] => []

/-- Step 2 of `formatContent` after the trim: a content that starts and
ends with the same quote character loses exactly one leading and one
trailing character (`content.slice(1, -1)`). -/
def stripWrappingQuotes (l : List Char) : List Char :=
  if (l.head? = some '"' && l.getLast? = some '"') ||
     (l.head? = some squote && l.getLast? = some squote) then
    (l.drop 1).dropLast
  else l

/-- Scanner for `content.replace(/\*\*([^*]+)\*\*/g, "$1")`.  The fuel
argument only bounds the recursion; every recursive call shortens the
list, so `length + 1` fuel always suffices. -/
def replaceBoldF : ℕ → List Char → List Char
  | 0, l => l
  | fuel + 1, l =>
    match l with
    | '*' :: '*' :: rest =>
      let body := rest.takeWhile (fun c => ¬ c = '*')
      let rest' := rest.dropWhile (fun c => ¬ c = '*')
      if body ≠ [] then
        match rest' with
        | '*' :: '*' :: rest2 => body ++ replaceBoldF fuel rest2
        | _ => '*' :: replaceBoldF fuel ('*' :: rest)
      else '*' :: replaceBoldF fuel ('*' :: rest)
    | c :: rest => c :: replaceBoldF fuel rest
    | [] => []

def replaceBold (l : List Char) : List Char :=
  replaceBoldF (l.length + 1) l

/-- Scanner for `content.replace(/(?<!\*)\*([^*]+)\*(?!\*)/g, "$1")`.
The Boolean tracks whether the character before the scan position in
the original content is an asterisk (the lookbehind). -/
def replaceItalicF : ℕ → Bool → List Char → List Char
  | 0, _, l => l
  | fuel + 1, prevStar, l =>
    match l with
    | [] => []
    | c :: rest =>
      if c = '*' then
        if prevStar then '*' :: replaceItalicF fuel true rest
        else
          let body := rest.takeWhile (fun d => ¬ d = '*')
          let rest' := rest.dropWhile (fun d => ¬ d = '*')
          if body ≠ [] then
            match rest' with
            | '*' :: rest2 =>
              if rest2.head? = some '*' then '*' :: replaceItalicF fuel true rest
              else body ++ replaceItalicF fuel true rest2
            | _ => '*' :: replaceItalicF fuel true rest
          else '*' :: replaceItalicF fuel true rest
      else c :: replaceItalicF fuel false rest

def replaceItalic (l : List Char) : List Char :=
  replaceItalicF (l.length + 1) false l

/-- Scanner for the code-marker pass (backquote-wrapped runs lose their
markers). -/
def replaceCodeF : ℕ → List Char → List Char
  | 0, l => l
  | fuel + 1, l =>
    match l with
    | [] => []
    | c :: rest =>
      if c = bquote then
        let body := rest.takeWhile (fun d => ¬ d = bquote)
        let rest' := rest.dropWhile (fun d => ¬ d = bquote)
        if body ≠ [] then
          match rest' with
          | _ :: rest2 => body ++ replaceCodeF fuel rest2
          | [] => bquote :: replaceCodeF fuel rest
        else bquote :: replaceCodeF fuel rest
      else c :: replaceCodeF fuel rest

def replaceCode (l : List Char) : List Char :=
  replaceCodeF (l.length + 1) l

/-- Scanner for `content.replace(/^#{1,6}\s+/gm, "")`: at each line
start, a run of one to six hashes followed by whitespace is removed
together with the whole greedy whitespace run; whether the position
after the removal is again a line start depends on the last removed
whitespace character. -/
def stripHeadersF : ℕ → Bool → List Char → List Char
  | 0, _, l => l
  | fuel + 1, atStart, l =>
    match l with
    | [] => []
    | c :: rest =>
      if atStart then
        let hs := (c :: rest).takeWhile (fun d => d = '#')
        let after := (c :: rest).drop hs.length
        if hs ≠ [] ∧ hs.length ≤ 6 ∧ after.head?.elim false isJsSpace then
          let ws := after.takeWhile isJsSpace
          stripHeadersF fuel (ws.getLast?.elim false isLineTermJS) (after.dropWhile isJsSpace)
        else c :: stripHeadersF fuel (isLineTermJS c) rest
      else c :: stripHeadersF fuel (isLineTermJS c) rest

def stripHeaders (l : List Char) : List Char :=
  stripHeadersF (l.length + 1) true l

/-- Pass 1 of `normalizeLineBreaks`: `content.replace(/\r\n/g, "\n")`. -/
def crlfToLf : List Char → List Char
  | [] => []
  | [c] => [c]
  | c :: d :: rest =>
    if c = '\r' ∧ d = '\n' then '\n' :: crlfToLf rest
    else c :: crlfToLf (d :: rest)

/-- Pass 2 of `normalizeLineBreaks`: `content.replace(/\r/g, "\n")`. -/
def crToLf (l : List Char) : List Char :=
  l.map (fun c => if c = '\r' then '\n' else c)

/-- Pass 3 of `normalizeLineBreaks`, only for the CRLF style:
`content.replace(/\n/g, "\r\n")`. -/
def lfToCrlf (l : List Char) : List Char :=
  l.flatMap (fun c => if c = '\n' then ['\r', '\n'] else [c])

/-- Embeds `normalizeLineBreaks(content, style)`: everything becomes a
bare LF first, then LFs are expanded when the target style is CRLF. -/
def normalizeLineBreaks (st : LineBreakStyle) (l : List Char) : List Char :=
  let n := crToLf (crlfToLf l)
  match st with
  | .lf => n
  | .crlf => lfToCrlf n

/-- Models `String.prototype.includes` for a fixed search sequence. -/
def containsSeqB (pat : List Char) : List Char → Bool
  | [] => pat.isEmpty
  | c :: rest => pat.isPrefixOf (c :: rest) || containsSeqB pat rest

/-- One global replace of the sequence `pat` by `repl`, non-overlapping
and left to right, as `String.prototype.replace` with a global literal
pattern performs it.  Fueled; every recursive call shortens the list. -/
def replaceAllSeqF (pat repl : List Char) : ℕ → List Char → List Char
  | 0, l => l
  | fuel + 1, l =>
    match l with
    | [] => []
    | c :: rest =>
      if pat ≠ [] ∧ pat.isPrefixOf (c :: rest) then
        repl ++ replaceAllSeqF pat repl fuel ((c :: rest).drop pat.length)
      else c :: replaceAllSeqF pat repl fuel rest

def replaceAllSeq (pat repl : List Char) (l : List Char) : List Char :=
  replaceAllSeqF pat repl (l.length + 1) l

/-- The `while (content.includes(tripleBreak))` loop of step 5: replace
every triple break by a double break until none is left.  Each
iteration strictly shortens the content, so `length + 1` fuel always
reaches the fixed point. -/
def collapseTripleF (st : LineBreakStyle) : ℕ → List Char → List Char
  | 0, l => l
  | fuel + 1, l =>
    if containsSeqB (tripleBreak st) l then
      collapseTripleF st fuel (replaceAllSeq (tripleBreak st) (doubleBreak st) l)
    else l

def collapseTriple (st : LineBreakStyle) (l : List Char) : List Char :=
  collapseTripleF st (l.length + 1) l

/-- Scanner for `content.replace(/[ \t]{2,}/g, " ")`: a maximal run of
two or more spaces/tabs becomes a single space, a lone space or tab is
kept as it is.  The flag records being inside a run already replaced. -/
def collapseSpacesAux : Bool → List Char → List Char
  | _, [] => []
  | inRun, c :: rest =>
    if isST c then
      if inRun then collapseSpacesAux true rest
      else if rest.head?.elim false isST then ' ' :: collapseSpacesAux true rest
      else c :: collapseSpacesAux false rest
    else c :: collapseSpacesAux false rest

def collapseSpaces (l : List Char) : List Char :=
  collapseSpacesAux false l

/-- Removal of space/tab runs that start a line, for
`content.replace(/^[ \t]+|[ \t]+$/gm, "")`: the flag is true at the
start of the content and right after every line terminator. -/
def dropLineLeading : Bool → List Char → List Char
  | _, [] => []
  | atStart, c :: rest =>
    if atStart && isST c then dropLineLeading true rest
    else c :: dropLineLeading (isLineTermJS c) rest

/-- Embeds `content.replace(/^[ \t]+|[ \t]+$/gm, "")`: leading runs are
removed directly, trailing runs by removing leading runs of the
reversed content (a run before a terminator is a run after one in
reverse). -/
def trimLineEdges (l : List Char) : List Char :=
  (dropLineLeading true (dropLineLeading true l).reverse).reverse

/-- Models `Array.prototype.lastIndexOf` restricted to characters:
the last index of `c` in `l`, or `-1`. -/
def lastIndexOfChar (l : List Char) (c : Char) : ℤ :=
  match (l.enum.filter (fun p => p.2 = c)).getLast? with
  | some p => (p.1 : ℤ)
  | none => -1

/-- Scanner for `content.matchAll(/#\w+/g)`: the start index and length
of every hashtag match, in order, non-overlapping. -/
def hashtagMatchesF : ℕ → ℕ → List Char → List (ℕ × ℕ)
  | 0, _, _ => []
  | fuel + 1, i, l =>
    match l with
    | [] => []
    | c :: rest =>
      if c = '#' ∧ rest.head?.elim false isWordChar then
        let w := rest.takeWhile isWordChar
        (i, w.length + 1) :: hashtagMatchesF fuel (i + w.length + 1) (rest.drop w.length)
      else hashtagMatchesF fuel (i + 1) rest

def hashtagMatches (l : List Char) : List (ℕ × ℕ) :=
  hashtagMatchesF (l.length + 1) 0 l

/-- The start index of the last line of `findHashtags`: one past the
last CR or LF, or the floor of three quarters of the length when the
content has none (`Math.floor(content.length * 0.75)`, exact because
0.75 is a dyadic rational). -/
def lastLineStartIndex (l : List Char) : ℕ :=
  let lastNl := max (lastIndexOfChar l '\n') (lastIndexOfChar l '\r')
  if lastNl = -1 then (3 * l.length) / 4 else lastNl.toNat + 1

/-- The `atEnd` bucket of `findHashtags`: matches whose index is at or
past the last line start. -/
def hashtagsAtEnd (l : List Char) : List (ℕ × ℕ) :=
  (hashtagMatches l).filter (fun m => lastLineStartIndex l ≤ m.1)

/-- Embeds `formatHashtagBlock(content, lineBreak)`: when a hashtag
sits on the last line and the four characters before it contain no
double line break yet, the content before it is trimmed at the end and
a double line break is inserted. -/
def formatHashtagBlock (st : LineBreakStyle) (l : List Char) : List Char :=
  match (hashtagsAtEnd l).head? with
  | none => l
  | some m =>
    let idx := m.1
    let before4 := (l.take idx).drop (idx - 4)
    if containsSeqB ['\n', '\n'] before4 || containsSeqB ['\r', '\n', '\r', '\n'] before4 then
      l
    else
      jsTrimEnd (l.take idx) ++ doubleBreak st ++ l.drop idx

/-- The prefix of the content before the first occurrence of `pat`
(`content.split(separator)[0]`). -/
def takeUntilSeq (pat : List Char) : List Char → List Char
  | [] => []
  | c :: rest => if pat.isPrefixOf (c :: rest) then [] else c :: takeUntilSeq pat rest

/-- The three characters appended by the truncation step of
`formatContent` (the ellipsis as the source file carries it). -/
def ellipsisChars : List Char := ['\u00E2', '\u20AC', '\u00A6']

structure FormatOptions where
  lineBreak : LineBreakStyle := .lf
  maxLength : Option ℕ := none
  keepFirstBlock : Bool := false
  formatHashtags : Bool := true

/-- Embeds `formatContent(content, options)` step by step in source
order.  Step 1 decodes escaped line breaks, step 2 trims and strips one
layer of wrapping quotes, step 3 strips paired markdown and headers,
step 4 normalizes the line-break style, step 5 collapses triple breaks,
space runs and line-edge whitespace and trims, step 6 optionally keeps
the first block, step 7 optionally spaces the hashtag block, step 8
optionally truncates (`maxLength` of `0` is falsy and disables it, as
in the source). -/
def formatContent (l : List Char) (opts : FormatOptions := {}) : List Char :=
  let c1 := decodeEscapedLF (decodeEscapedCRLF l)
  let c2 := stripWrappingQuotes (jsTrim c1)
  let c3 := stripHeaders (replaceCode (replaceItalic (replaceBold c2)))
  let c4 := normalizeLineBreaks opts.lineBreak c3
  let c5 := jsTrim (trimLineEdges (collapseSpaces (collapseTriple opts.lineBreak c4)))
  let c6 := if opts.keepFirstBlock then jsTrim (takeUntilSeq (doubleBreak opts.lineBreak) c5) else c5
  let c7 := if opts.formatHashtags then formatHashtagBlock opts.lineBreak c6 else c6
  match opts.maxLength with
  | some m => if m ≠ 0 ∧ c7.length > m then jsTrimEnd (c7.take (m - 1)) ++ ellipsisChars else c7
  | none => c7

/-! ## Store lemmas -/

theorem find?_overwrite_self (s : Store) (k : String) (v : Item)
    (hany : s.any (fun e => e.1 = k)) :
    (s.map (fun e => if e.1 = k then (k, v) else e)).find? (fun e => e.1 = k) =
      some (k, v) := by
  induction s with
  | nil => simp at hany
  | cons e rest ih =>
    by_cases he : e.1 = k
    · simp [List.find?, he]
    · have hr : rest.any (fun e => e.1 = k) := by
        rcases List.any_eq_true.mp hany with ⟨x, hx, hxk⟩
        rcases List.mem_cons.mp hx with h | h
        · subst h; simp [he] at hxk
        · exact List.any_eq_true.mpr ⟨x, h, hxk⟩
      simpa [List.find?, he] using ih hr

theorem find?_overwrite_other (s : Store) (k : String) (v : Item) (k' : String)
    (h : k' ≠ k) :
    (s.map (fun e => if e.1 = k then (k, v) else e)).find? (fun e => e.1 = k') =
      s.find? (fun e => e.1 = k') := by
  induction s with
  | nil => rfl
  | cons e rest ih =>
    rw [List.map_cons]
    by_cases he : e.1 = k
    · have h1 : ¬ ((k, v).1 = k') := fun hc => h hc.symm
      have h2 : ¬ (e.1 = k') := by rw [he]; exact fun hc => h hc.symm
      rw [if_pos he, List.find?_cons_of_neg _ (by simpa using h1),
        List.find?_cons_of_neg _ (by simpa using h2)]
      exact ih
    · rw [if_neg he]
      by_cases he' : e.1 = k'
      · rw [List.find?_cons_of_pos _ (by simpa using he'),
          List.find?_cons_of_pos _ (by simpa using he')]
      · rw [List.find?_cons_of_neg _ (by simpa using he'),
          List.find?_cons_of_neg _ (by simpa using he')]
        exact ih

theorem getItem_putItem_self (s : Store) (k : String) (v : Item) :
    getItem (putItem s k v) k = some v := by
  unfold putItem
  split
  · rename_i hany
    simp [getItem, find?_overwrite_self s k v hany]
  · rename_i hany
    have hnone : s.find? (fun e => decide (e.1 = k)) = none := by
      rw [List.find?_eq_none]
      intro x hx
      simp only [decide_eq_true_eq]
      intro hk
      exact hany (List.any_eq_true.mpr ⟨x, hx, by simp [hk]⟩)
    simp [getItem, List.find?_append, hnone]

theorem getItem_putItem_other (s : Store) (k : String) (v : Item) (k' : String)
    (h : k' ≠ k) : getItem (putItem s k v) k' = getItem s k' := by
  unfold putItem
  split
  · simp [getItem, find?_overwrite_other s k v k' h]
  · have h1 : ¬ ((k, v).1 = k') := fun hc => h hc.symm
    simp [getItem, List.find?_append, h1]

theorem keys_overwrite (s : Store) (k : String) (v : Item) :
    (s.map (fun e => if e.1 = k then (k, v) else e)).map Prod.fst = s.map Prod.fst := by
  rw [List.map_map]
  apply List.map_congr_left
  intro e _
  by_cases he : e.1 = k
  · simp [he]
  · simp [he]

theorem putItem_keys_nodup (s : Store) (k : String) (v : Item)
    (h : (s.map Prod.fst).Nodup) : ((putItem s k v).map Prod.fst).Nodup := by
  unfold putItem
  split
  · rw [keys_overwrite]; exact h
  · rename_i hany
    have hk : k ∉ s.map Prod.fst := by
      intro hmem
      rcases List.mem_map.mp hmem with ⟨e, he, hek⟩
      exact hany (List.any_eq_true.mpr ⟨e, he, by simp [hek]⟩)
    simp only [List.map_append, List.map_cons, List.map_nil]
    rw [List.nodup_append]
    refine ⟨h, List.nodup_singleton k, ?_⟩
    intro a ha hmem
    rw [List.mem_singleton] at hmem
    subst hmem
    exact hk ha

theorem putItem_filter_count (s : Store) (k : String) (v : Item)
    (h : (s.map Prod.fst).Nodup) :
    ((putItem s k v).filter (fun e => e.1 = k)).length = 1 := by
  unfold putItem
  split
  · rename_i hany
    induction s with
    | nil => simp at hany
    | cons e rest ih =>
      rw [List.map_cons, List.nodup_cons] at h
      by_cases he : e.1 = k
      · have hknotin : k ∉ rest.map Prod.fst := he ▸ h.1
        have hrest : (rest.map (fun e => if e.1 = k then (k, v) else e)).filter
            (fun e => e.1 = k) = [] := by
          rw [List.filter_eq_nil_iff]
          intro x hx
          rcases List.mem_map.mp hx with ⟨y, hy, hyx⟩
          have hyk : ¬ (y.1 = k) := fun hc => hknotin (List.mem_map.mpr ⟨y, hy, hc⟩)
          simp only [if_neg hyk] at hyx
          subst hyx
          simp [hyk]
        simp [List.filter, he, hrest]
      · have hr : rest.any (fun e => e.1 = k) := by
          rcases List.any_eq_true.mp hany with ⟨x, hx, hxk⟩
          rcases List.mem_cons.mp hx with hh | hh
          · subst hh; simp [he] at hxk
          · exact List.any_eq_true.mpr ⟨x, hh, hxk⟩
        simpa [List.filter, he] using ih h.2 hr
  · rename_i hany
    have hfil : s.filter (fun e => e.1 = k) = [] := by
      rw [List.filter_eq_nil_iff]
      intro x hx
      simp only [decide_eq_true_eq]
      intro hk
      exact hany (List.any_eq_true.mpr ⟨x, hx, by simp [hk]⟩)
    simp [List.filter_append, hfil, List.filter]

/-! ## Claim C2 -/

/-- C2: `getRecap` is claimed to accept every interval in
{daily, weekly, monthly} declared by the Market Data API interface,
in particular interval `daily` for type `coin` as invoked by
`scheduleDailyRecap`.  The code rejects `daily`: its `validIntervals`
list holds only `weekly` and `monthly`, so the call the daily
coin-recap family makes throws an invalid-parameter error before any
request is issued, while `weekly` and `monthly` pass validation. -/
theorem getRecap_rejects_daily :
    getRecap "coin" "daily" = .error (.invalidInterval "daily") ∧
    getRecap "coin" "weekly" =
      .ok ⟨"recap", [("type", "coin"), ("interval", "weekly"), ("limit", "50")]⟩ ∧
    getRecap "exchange" "monthly" =
      .ok ⟨"recap", [("type", "exchange"), ("interval", "monthly"), ("limit", "50")]⟩ := by
  refine ⟨?_, ?_, ?_⟩ <;> rfl

/-! ## Claim C4 -/

/-- C4: calling `schedulePost` twice for the same (platform, target)
pair — with possibly different payloads and timestamps — leaves exactly
one stored entry for that pair, holding the latest payload (after
large-number stringification) and the latest timestamp, and leaves
every other key of the store untouched. -/
theorem schedulePost_idempotent_upsert (s : Store) (p t : String)
    (d1 d2 : JsonVal) (ts1 ts2 : ℕ) (hnodup : (s.map Prod.fst).Nodup) :
    ((schedulePost (schedulePost s p t d1 ts1) p t d2 ts2).filter
        (fun e => e.1 = postKey p t)).length = 1 ∧
    getItem (schedulePost (schedulePost s p t d1 ts1) p t d2 ts2) (postKey p t) =
      some (.post p t (convertLargeNumbersToString d2) ts2) ∧
    ∀ k, k ≠ postKey p t →
      getItem (schedulePost (schedulePost s p t d1 ts1) p t d2 ts2) k = getItem s k := by
  unfold schedulePost
  refine ⟨putItem_filter_count _ _ _ (putItem_keys_nodup s _ _ hnodup),
    getItem_putItem_self _ _ _, ?_⟩
  intro k hk
  rw [getItem_putItem_other _ _ _ _ hk, getItem_putItem_other _ _ _ _ hk]

/-- Witness for C4 at a concrete store and pair. -/
theorem schedulePost_idempotent_upsert_witness :
    ((schedulePost (schedulePost ([] : Store) "twitter" "trends" .null 10)
        "twitter" "trends" .null 20).filter
        (fun e => e.1 = postKey "twitter" "trends")).length = 1 ∧
    getItem (schedulePost (schedulePost ([] : Store) "twitter" "trends" .null 10)
        "twitter" "trends" .null 20) (postKey "twitter" "trends") =
      some (.post "twitter" "trends" (convertLargeNumbersToString .null) 20) := by
  have h := schedulePost_idempotent_upsert ([] : Store) "twitter" "trends"
    .null .null 10 20 (by simp)
  exact ⟨h.1, h.2.1⟩

/-! ## Claim C8 -/

/-- C8: a stored `ScheduledPost` is never returned by the due-scan
while the real current time (in milliseconds) is strictly below its
`notBefore` second, and is always returned from that second on — the
boundary `now = notBefore` is included, because the filter compares
`timestamp <= Math.floor(Date.now() / 1000)`. -/
theorem getScheduledPosts_due_boundary (s : Store) (key p t : String)
    (d : JsonVal) (notBefore nowMs : ℕ)
    (hmem : (key, Item.post p t d notBefore) ∈ s) :
    (nowMs < 1000 * notBefore →
      Item.post p t d notBefore ∉ getScheduledPosts s nowMs) ∧
    (1000 * notBefore ≤ nowMs →
      Item.post p t d notBefore ∈ getScheduledPosts s nowMs) := by
  constructor
  · intro hlt hmem'
    unfold getScheduledPosts at hmem'
    have hts := (List.mem_filter.mp hmem').2
    simp only [Item.ts, decide_eq_true_eq] at hts
    have := (Nat.le_div_iff_mul_le (by norm_num : 0 < 1000)).mp hts
    omega
  · intro hge
    unfold getScheduledPosts
    apply List.mem_filter.mpr
    refine ⟨List.mem_map.mpr ⟨(key, Item.post p t d notBefore), hmem, rfl⟩, ?_⟩
    simp only [Item.ts, decide_eq_true_eq]
    exact (Nat.le_div_iff_mul_le (by norm_num : 0 < 1000)).mpr (by omega)

/-- Witness for C8: a post due at second 100 is absent at millisecond
99999 and present at millisecond 100000. -/
theorem getScheduledPosts_due_boundary_witness :
    (Item.post "twitter" "trends" .null 100 ∉
      getScheduledPosts [("post-twitter-trends", Item.post "twitter" "trends" .null 100)] 99999) ∧
    (Item.post "twitter" "trends" .null 100 ∈
      getScheduledPosts [("post-twitter-trends", Item.post "twitter" "trends" .null 100)] 100000) :=
  ⟨(getScheduledPosts_due_boundary _ "post-twitter-trends" "twitter" "trends" .null 100 99999
      (List.mem_singleton.mpr rfl)).1 (by norm_num),
   (getScheduledPosts_due_boundary _ "post-twitter-trends" "twitter" "trends" .null 100 100000
      (List.mem_singleton.mpr rfl)).2 (by norm_num)⟩

/-! ## Claim C9 -/

/-- C9: the due-scan only ever returns scheduled-post records.
Credential records and run markers carry `Date.now()` millisecond
timestamps; whenever those exceed the scan clock divided by 1000 (which
holds for every realistic pair of clock readings, the hypothesis
`nowMs < 1000 * timestamp`), they fail the filter
`timestamp <= Math.floor(Date.now() / 1000)`, so the Poster is never
handed a record lacking platform/target/data.  In particular a record
freshly written by `updateTwitter` or `updateInstagram` is not due. -/
theorem getScheduledPosts_only_posts (s : Store) (nowMs : ℕ)
    (hms : ∀ e ∈ s, e.2.isPost = false → nowMs < 1000 * e.2.ts) :
    (∀ it ∈ getScheduledPosts s nowMs, it.isPost = true) ∧
    (∀ (s0 : Store) (a r : String) (x nw : ℕ), nowMs < 1000 * nw →
      Item.twitterCred a r x nw ∉ getScheduledPosts (updateTwitter s0 a r x nw) nowMs) ∧
    (∀ (s0 : Store) (sess : String) (nw : ℕ), nowMs < 1000 * nw →
      Item.instagramCred sess nw ∉ getScheduledPosts (updateInstagram s0 sess nw) nowMs) := by
  refine ⟨?_, ?_, ?_⟩
  · intro it hit
    unfold getScheduledPosts at hit
    obtain ⟨hmem, hts⟩ := List.mem_filter.mp hit
    rcases List.mem_map.mp hmem with ⟨e, he, rfl⟩
    simp only [decide_eq_true_eq] at hts
    cases hp : e.2.isPost
    · have hsc := hms e he hp
      have := (Nat.le_div_iff_mul_le (by norm_num : 0 < 1000)).mp hts
      omega
    · rfl
  · intro s0 a r x nw hscale hmem
    have hts := (List.mem_filter.mp hmem).2
    simp only [Item.ts, decide_eq_true_eq] at hts
    have := (Nat.le_div_iff_mul_le (by norm_num : 0 < 1000)).mp hts
    omega
  · intro s0 sess nw hscale hmem
    have hts := (List.mem_filter.mp hmem).2
    simp only [Item.ts, decide_eq_true_eq] at hts
    have := (Nat.le_div_iff_mul_le (by norm_num : 0 < 1000)).mp hts
    omega

/-- Witness for C9 on a store holding one post, one credential record
and one run marker, scanned 100 seconds after the credential writes. -/
theorem getScheduledPosts_only_posts_witness :
    (∀ it ∈ getScheduledPosts
        [("twitter", Item.twitterCred "at" "rt" 6000 1700000000000),
         ("last-run-poster", Item.runMarker "poster" 1700000000000),
         ("post-twitter-trends", Item.post "twitter" "trends" .null 1700000000)]
        1700000100000, it.isPost = true) ∧
    (Item.twitterCred "at" "rt" 6000 1700000000000 ∉
      getScheduledPosts (updateTwitter [] "at" "rt" 6000 1700000000000) 1700000100000) := by
  have hms : ∀ e ∈ [("twitter", Item.twitterCred "at" "rt" 6000 1700000000000),
      ("last-run-poster", Item.runMarker "poster" 1700000000000),
      ("post-twitter-trends", Item.post "twitter" "trends" .null 1700000000)],
      e.2.isPost = false → 1700000100000 < 1000 * e.2.ts := by
    intro e he
    rcases List.mem_cons.mp he with h | h
    · subst h; intro _; norm_num [Item.ts]
    rcases List.mem_cons.mp h with h2 | h2
    · subst h2; intro _; norm_num [Item.ts]
    rcases List.mem_cons.mp h2 with h3 | h3
    · subst h3; intro hc; simp [Item.isPost] at hc
    · simp at h3
  have h := getScheduledPosts_only_posts _ 1700000100000 hms
  exact ⟨h.1, h.2.1 [] "at" "rt" 6000 1700000000000 (by norm_num)⟩

/-! ## Claim C5 -/

/-- C5: on a publish attempt with a stored credential record (so its
`timestamp` is a real clock reading, hence positive), `init` reuses the
stored access token with no refresh call exactly when
`now - savedAt < expiresIn * 1000` milliseconds, and enters the refresh
path otherwise — whose outcome is then fully determined by the refresh
call.  Concretely, with `savedAt = now - 100000` the validity test
fails for `expiresIn = 50` and succeeds for `expiresIn = 200`. -/
theorem twitterInit_refresh_policy (ea er : String) (s : TwitterStored) (nowMs : ℤ)
    (refresh : Except String RefreshResult) (hts : 0 < s.timestamp) :
    (tokenStillValid s nowMs = true ↔ nowMs - s.timestamp < s.expiresIn * 1000) ∧
    (nowMs - s.timestamp < s.expiresIn * 1000 →
      twitterInit (some s) ea er nowMs refresh = .ok (.notExpired, s.accessToken, none)) ∧
    (s.expiresIn * 1000 ≤ nowMs - s.timestamp →
      twitterInit (some s) ea er nowMs refresh =
        match refresh with
        | .error e => .error e
        | .ok r =>
            if r.refreshToken ≠ "" then
              .ok (.refreshed, r.accessToken,
                some ⟨r.accessToken, r.refreshToken, r.expiresIn, nowMs⟩)
            else .error "Token refresh failed - no refresh token returned") ∧
    tokenStillValid ⟨ea, er, 50, nowMs - 100000⟩ nowMs = false ∧
    (nowMs - 100000 ≠ 0 → tokenStillValid ⟨ea, er, 200, nowMs - 100000⟩ nowMs = true) := by
  have hvalid : tokenStillValid s nowMs = true ↔
      nowMs - s.timestamp < s.expiresIn * 1000 := by
    simp only [tokenStillValid, Bool.decide_and, Bool.and_eq_true, decide_eq_true_eq]
    constructor
    · exact fun h => h.2
    · exact fun h => ⟨by omega, h⟩
  refine ⟨hvalid, ?_, ?_, ?_, ?_⟩
  · intro h
    show (if tokenStillValid s nowMs = true then _ else _) = _
    rw [if_pos (hvalid.mpr h)]
  · intro h
    show (if tokenStillValid s nowMs = true then _ else _) = _
    rw [if_neg (by rw [hvalid]; omega)]
  · simp only [tokenStillValid, Bool.decide_and]
    have habs : ¬ (nowMs - (nowMs - 100000) < 50 * 1000) := by omega
    simp [habs]
  · intro hne
    simp only [tokenStillValid, Bool.decide_and, Bool.and_eq_true, decide_eq_true_eq]
    exact ⟨hne, by omega⟩

/-- Witness for C5 at concrete clock readings: with
`savedAt = now - 100000` ms, `expiresIn = 200` s reuses the stored
token, `expiresIn = 50` s refreshes. -/
theorem twitterInit_refresh_policy_witness :
    twitterInit (some ⟨"at", "rt", 200, 1699999900000⟩) "ea" "er" 1700000000000
      (.error "refresh rejected") = .ok (.notExpired, "at", none) ∧
    twitterInit (some ⟨"at", "rt", 50, 1699999900000⟩) "ea" "er" 1700000000000
      (.ok ⟨"newAt", "newRt", 7200⟩) =
      .ok (.refreshed, "newAt", some ⟨"newAt", "newRt", 7200, 1700000000000⟩) := by
  have h200 := twitterInit_refresh_policy "ea" "er" ⟨"at", "rt", 200, 1699999900000⟩
    1700000000000 (.error "refresh rejected") (by norm_num)
  have h50 := twitterInit_refresh_policy "ea" "er" ⟨"at", "rt", 50, 1699999900000⟩
    1700000000000 (.ok ⟨"newAt", "newRt", 7200⟩) (by norm_num)
  refine ⟨h200.2.1 (by norm_num), ?_⟩
  rw [h50.2.2.1 (by norm_num)]
  rfl

/-! ## Claim C6 -/

/-- C6: with no forced primary configured, provider selection returns
the first provider in the fixed priority order
OpenAI > OpenRouter > DeepSeek > Groq > Together whose credential is
truthy — in particular DeepSeek when only the third-priority provider
has a key — and with a forced primary whose credential is missing it
fails fast with a configuration error naming the provider. -/
theorem getBestAvailableProvider_selection (cfg : AIConfig) :
    (cfg.primaryProvider = none →
      getBestAvailableProvider cfg =
        .ok ((priorityList.find? (fun prov => keyTruthy (cfg.apiKeys prov))).map
          Provider.name)) ∧
    (cfg.primaryProvider = none →
      keyTruthy (cfg.apiKeys .openai) = false →
      keyTruthy (cfg.apiKeys .openrouter) = false →
      keyTruthy (cfg.apiKeys .deepseek) = true →
      getBestAvailableProvider cfg = .ok (some "deepseek")) ∧
    (∀ p prov, cfg.primaryProvider = some p → providerOfString p = some prov →
      keyTruthy (cfg.apiKeys prov) = false →
      getBestAvailableProvider cfg = .error (.primaryMissingKey p)) := by
  refine ⟨?_, ?_, ?_⟩
  · intro hp
    simp [getBestAvailableProvider, validatePrimaryProvider, hp]
  · intro hp h1 h2 h3
    simp [getBestAvailableProvider, validatePrimaryProvider, hp, priorityList,
      List.find?, h1, h2, h3, Provider.name]
  · intro p prov hp hprov hkey
    simp [getBestAvailableProvider, validatePrimaryProvider, hp, hprov, hkey]

/-- Witness for C6: a configuration where only DeepSeek has a key
selects DeepSeek, and a forced primary `groq` without a key fails. -/
theorem getBestAvailableProvider_selection_witness :
    getBestAvailableProvider
      ⟨none, fun prov => match prov with | .deepseek => some "sk" | _ => none⟩ =
      .ok (some "deepseek") ∧
    getBestAvailableProvider ⟨some "groq", fun _ => none⟩ =
      .error (.primaryMissingKey "groq") := by
  have h1 := getBestAvailableProvider_selection
    ⟨none, fun prov => match prov with | .deepseek => some "sk" | _ => none⟩
  have h2 := getBestAvailableProvider_selection ⟨some "groq", fun _ => none⟩
  exact ⟨h1.2.1 rfl rfl rfl (by simp [keyTruthy]),
    h2.2.2 "groq" .groq rfl rfl rfl⟩

/-! ## Claim C10 -/

/-- C10: `abbreviateNumber` is partial on its numeric domain.  For
`0 < n < 1` and for `n < 0` no SI tier satisfies `n >= tier.value`, the
tier lookup yields `undefined` and the call throws; for `n = 0` the
number `0` itself is returned (not a string); for `n ≥ 1` an
abbreviated string is returned, e.g. `"5.0B"` for 5000000000 with one
decimal. -/
theorem abbreviateNumber_partial_domain (q : ℚ) (d : ℕ) (lng : Bool) :
    (0 < q → q < 1 → abbreviateNumber q d lng = .typeError) ∧
    (q < 0 → abbreviateNumber q d lng = .typeError) ∧
    (abbreviateNumber 0 d lng = .numResult 0) ∧
    (1 ≤ q → ∃ s, abbreviateNumber q d lng = .strResult s) ∧
    abbreviateNumber 5000000000 1 false = .strResult "5.0B" := by
  refine ⟨?_, ?_, ?_, ?_, ?_⟩
  · intro h0 h1
    unfold abbreviateNumber
    rw [if_neg (by intro hq; rw [hq] at h0; exact lt_irrefl 0 h0)]
    have hfil : SI_PREFIXES.filter (fun t => t.value ≤ q) = [] := by
      rw [List.filter_eq_nil_iff]
      intro t ht
      fin_cases ht <;> simp <;> linarith
    rw [hfil]
    rfl
  · intro hneg
    unfold abbreviateNumber
    rw [if_neg (by intro hq; rw [hq] at hneg; exact lt_irrefl 0 hneg)]
    have hfil : SI_PREFIXES.filter (fun t => t.value ≤ q) = [] := by
      rw [List.filter_eq_nil_iff]
      intro t ht
      fin_cases ht <;> simp <;> linarith
    rw [hfil]
    rfl
  · simp [abbreviateNumber]
  · intro h1
    unfold abbreviateNumber
    rw [if_neg (by intro hq; rw [hq] at h1; norm_num at h1)]
    have hne : SI_PREFIXES.filter (fun t => t.value ≤ q) ≠ [] := by
      intro hc
      have hmem : (⟨1, "", ""⟩ : SIPrefix) ∈ SI_PREFIXES.filter (fun t => t.value ≤ q) := by
        apply List.mem_filter.mpr
        exact ⟨by simp [SI_PREFIXES], by simpa using h1⟩
      rw [hc] at hmem
      exact absurd hmem (List.not_mem_nil _)
    obtain ⟨tier, htier⟩ := Option.isSome_iff_exists.mp (List.getLast?_isSome.mpr hne)
    rw [htier]
    exact ⟨_, rfl⟩
  · unfold abbreviateNumber
    rw [if_neg (by norm_num)]
    have hfil : SI_PREFIXES.filter (fun t => t.value ≤ (5000000000 : ℚ)) =
        [⟨1, "", ""⟩, ⟨1000, "K", " Thousand"⟩, ⟨1000000, "M", " Million"⟩,
         ⟨1000000000, "B", " Billion"⟩] := by
      norm_num [SI_PREFIXES, List.filter]
    rw [hfil]
    simp only [List.getLast?, List.getLast, Bool.false_eq_true, if_false]
    have hdiv : (5000000000 : ℚ) / 1000000000 = 5 := by norm_num
    rw [hdiv]
    have hr : ratToFixed 5 1 = "5.0" := by
      unfold ratToFixed
      rw [show ((5 * 10 ^ 1 + 1 / 2 : ℚ)).floor = (50 : ℤ) from by
        rw [Rat.floor_def']; norm_num]
      rfl
    rw [hr]
    rfl

/-- Witness for C10 at concrete inputs from each part of the domain. -/
theorem abbreviateNumber_partial_domain_witness :
    abbreviateNumber (1 / 2) 1 false = .typeError ∧
    abbreviateNumber (-7) 2 true = .typeError ∧
    abbreviateNumber 0 1 false = .numResult 0 ∧
    (∃ s, abbreviateNumber 42 1 false = .strResult s) := by
  have h1 := abbreviateNumber_partial_domain (1 / 2) 1 false
  have h2 := abbreviateNumber_partial_domain (-7) 2 true
  have h3 := abbreviateNumber_partial_domain 0 1 false
  have h4 := abbreviateNumber_partial_domain 42 1 false
  exact ⟨h1.1 (by norm_num) (by norm_num), h2.2.1 (by norm_num), h3.2.2.1,
    h4.2.2.2.1 (by norm_num)⟩

/-! ## Claim C1 -/

/-- Once a family has recorded an uncaught error, no later family of
the same `midnight` run is touched (`await` rethrows immediately). -/
theorem foldl_runFamily_frozen (env : SchedEnv) (fams : List Family)
    (att : List Family) (cls : List Call) (e : String) :
    fams.foldl (runFamily env) ⟨att, cls, some e⟩ = ⟨att, cls, some e⟩ := by
  induction fams with
  | nil => rfl
  | cons fam rest ih =>
    rw [List.foldl_cons, show runFamily env ⟨att, cls, some e⟩ fam = ⟨att, cls, some e⟩
      from rfl, ih]

/-- The `schedulePost` calls a family issues for a fetch result that
resolved (`none` = falsy data, skipped by `if (data)`). -/
def optCalls (env : SchedEnv) (d : Option JsonVal) (fam : Family) : List Call :=
  d.elim [] (fun x => familyCalls env x fam)

/-- An environment in which the daily-recap fetch rejects while every
other family would have data: Friday, with working weekly data. -/
def c1CexEnv : SchedEnv :=
  ⟨.error "boom", .ok (some .null), .ok (some .null), .ok (some .null), 0, true, false⟩

/-- C1 counterexample: in `c1CexEnv` only the daily-recap family fails,
yet the whole `midnight` cycle aborts with that error — the
daily-popular family (and the enabled weekly family) is never
attempted and nothing at all is scheduled.  The failure is not
isolated, refuting the claim at this concrete run. -/
theorem midnight_failure_not_isolated_cex :
    (midnight c1CexEnv).err = some "boom" ∧
    Family.dailyPopular ∉ (midnight c1CexEnv).attempts ∧
    (midnight c1CexEnv).calls = [] := by
  have h : midnight c1CexEnv = ⟨[.dailyRecap], [], some "boom"⟩ := rfl
  rw [h]
  exact ⟨rfl, by decide, rfl⟩

/-- C1 amended: when the market-data fetch of a family rejects, the
`midnight` handler — which has no `try`/`catch` — aborts with exactly
that error: the enabled families before it in source order have been
run and their posts scheduled, the failing family is the last one
attempted, and every later family is skipped entirely. -/
theorem midnight_abort_on_family_failure (env : SchedEnv) :
    (∀ e, env.fetchDailyRecap = .error e →
      midnight env = ⟨[.dailyRecap], [], some e⟩) ∧
    (∀ d1 e, env.fetchDailyRecap = .ok d1 → env.fetchPopular = .error e →
      midnight env = ⟨[.dailyRecap, .dailyPopular],
        optCalls env d1 .dailyRecap, some e⟩) ∧
    (∀ d1 d2 e, env.isFriday = true →
      env.fetchDailyRecap = .ok d1 → env.fetchPopular = .ok d2 →
      env.fetchWeeklyRecap = .error e →
      midnight env = ⟨[.dailyRecap, .dailyPopular, .weeklyRecap],
        optCalls env d1 .dailyRecap ++ optCalls env d2 .dailyPopular, some e⟩) ∧
    (∀ d1 d2 e, env.isFriday = false → env.isLastDayOfMonth = true →
      env.fetchDailyRecap = .ok d1 → env.fetchPopular = .ok d2 →
      env.fetchMonthlyRecap = .error e →
      midnight env = ⟨[.dailyRecap, .dailyPopular, .monthlyRecap],
        optCalls env d1 .dailyRecap ++ optCalls env d2 .dailyPopular, some e⟩) ∧
    (∀ d1 d2 d3 e, env.isFriday = true → env.isLastDayOfMonth = true →
      env.fetchDailyRecap = .ok d1 → env.fetchPopular = .ok d2 →
      env.fetchWeeklyRecap = .ok d3 → env.fetchMonthlyRecap = .error e →
      midnight env = ⟨[.dailyRecap, .dailyPopular, .weeklyRecap, .monthlyRecap],
        optCalls env d1 .dailyRecap ++ optCalls env d2 .dailyPopular ++
          optCalls env d3 .weeklyRecap, some e⟩) := by
  have hifT : (if true = true then [Family.weeklyRecap] else []) = [Family.weeklyRecap] := rfl
  have hifTm : (if true = true then [Family.monthlyRecap] else []) = [Family.monthlyRecap] := rfl
  have hifF : (if false = true then [Family.weeklyRecap] else []) = [] := rfl
  have hifFm : (if false = true then [Family.monthlyRecap] else []) = [] := rfl
  refine ⟨?_, ?_, ?_, ?_, ?_⟩
  · intro e he
    unfold midnight enabledFamilies
    rw [List.foldl_append, List.foldl_append]
    have h1 : [Family.dailyRecap, Family.dailyPopular].foldl (runFamily env) ⟨[], [], none⟩ =
        ⟨[.dailyRecap], [], some e⟩ := by
      simp [List.foldl, runFamily, SchedEnv.fetch, he]
    rw [h1, foldl_runFamily_frozen, foldl_runFamily_frozen]
  · intro d1 e h1 h2
    unfold midnight enabledFamilies
    rw [List.foldl_append, List.foldl_append]
    have hfold : [Family.dailyRecap, Family.dailyPopular].foldl (runFamily env) ⟨[], [], none⟩ =
        ⟨[.dailyRecap, .dailyPopular], optCalls env d1 .dailyRecap, some e⟩ := by
      cases d1 <;> simp [List.foldl, runFamily, SchedEnv.fetch, h1, h2, optCalls]
    rw [hfold, foldl_runFamily_frozen, foldl_runFamily_frozen]
  · intro d1 d2 e hfri h1 h2 h3
    unfold midnight enabledFamilies
    rw [hfri, hifT, List.foldl_append, List.foldl_append]
    have hfold : [Family.dailyRecap, Family.dailyPopular].foldl (runFamily env) ⟨[], [], none⟩ =
        ⟨[.dailyRecap, .dailyPopular],
          optCalls env d1 .dailyRecap ++ optCalls env d2 .dailyPopular, none⟩ := by
      cases d1 <;> cases d2 <;>
        simp [List.foldl, runFamily, SchedEnv.fetch, h1, h2, optCalls]
    rw [hfold]
    have hw : [Family.weeklyRecap].foldl (runFamily env)
        ⟨[.dailyRecap, .dailyPopular],
          optCalls env d1 .dailyRecap ++ optCalls env d2 .dailyPopular, none⟩ =
        ⟨[.dailyRecap, .dailyPopular, .weeklyRecap],
          optCalls env d1 .dailyRecap ++ optCalls env d2 .dailyPopular, some e⟩ := by
      simp [List.foldl, runFamily, SchedEnv.fetch, h3]
    rw [hw, foldl_runFamily_frozen]
  · intro d1 d2 e hfri hlast h1 h2 h3
    unfold midnight enabledFamilies
    rw [hfri, hlast, hifF, hifTm, List.foldl_append, List.foldl_append]
    have hfold : [Family.dailyRecap, Family.dailyPopular].foldl (runFamily env) ⟨[], [], none⟩ =
        ⟨[.dailyRecap, .dailyPopular],
          optCalls env d1 .dailyRecap ++ optCalls env d2 .dailyPopular, none⟩ := by
      cases d1 <;> cases d2 <;>
        simp [List.foldl, runFamily, SchedEnv.fetch, h1, h2, optCalls]
    rw [hfold, List.foldl_nil]
    simp [List.foldl, runFamily, SchedEnv.fetch, h3]
  · intro d1 d2 d3 e hfri hlast h1 h2 h3 h4
    unfold midnight enabledFamilies
    rw [hfri, hlast, hifT, hifTm, List.foldl_append, List.foldl_append]
    have hfold : [Family.dailyRecap, Family.dailyPopular].foldl (runFamily env) ⟨[], [], none⟩ =
        ⟨[.dailyRecap, .dailyPopular],
          optCalls env d1 .dailyRecap ++ optCalls env d2 .dailyPopular, none⟩ := by
      cases d1 <;> cases d2 <;>
        simp [List.foldl, runFamily, SchedEnv.fetch, h1, h2, optCalls]
    rw [hfold]
    have hw : [Family.weeklyRecap].foldl (runFamily env)
        ⟨[.dailyRecap, .dailyPopular],
          optCalls env d1 .dailyRecap ++ optCalls env d2 .dailyPopular, none⟩ =
        ⟨[.dailyRecap, .dailyPopular, .weeklyRecap],
          optCalls env d1 .dailyRecap ++ optCalls env d2 .dailyPopular ++
            optCalls env d3 .weeklyRecap, none⟩ := by
      cases d3 <;> simp [List.foldl, runFamily, SchedEnv.fetch, h3, optCalls]
    rw [hw]
    simp [List.foldl, runFamily, SchedEnv.fetch, h4]

/-- Witness for the amended C1: a concrete run where the
daily-popular fetch rejects — the daily recap before it was scheduled,
nothing after it runs. -/
theorem midnight_abort_on_family_failure_witness :
    midnight ⟨.ok (some .null), .error "api down", .ok none, .ok none, 0, false, false⟩ =
      ⟨[.dailyRecap, .dailyPopular],
        optCalls ⟨.ok (some .null), .error "api down", .ok none, .ok none, 0, false, false⟩
          (some .null) .dailyRecap, some "api down"⟩ :=
  (midnight_abort_on_family_failure _).2.1 (some .null) "api down" rfl rfl

/-! ## Claim C3 -/

/-- Keys of the entries whose loop iteration reaches
`removeScheduledPost` (no thrown publish error). -/
def deleteKeys (env : PosterEnv) (posts : List PostEntry) : List String :=
  (posts.filter (stepDeletes env)).map (fun p => postKey p.platform p.target)

/-- Keys of the entries whose publish call succeeded. -/
def successKeys (env : PosterEnv) (posts : List PostEntry) : List String :=
  (posts.filter (publishOk env)).map (fun p => postKey p.platform p.target)

/-- The errors captured (and swallowed) by the per-entry catch, in
order. -/
def posterErrors (env : PosterEnv) (posts : List PostEntry) : List String :=
  posts.filterMap (fun p =>
    match dispatch env p with
    | some (.error e) => some e
    | _ => none)

/-- Unrolling the Poster loop: every entry is attempted in order, the
final store is the initial one minus the keys of the non-throwing
entries, and the captured errors accumulate. -/
theorem posterHandler_foldl_spec (env : PosterEnv) (posts : List PostEntry) :
    ∀ (st : Store) (att : List PostEntry) (errs : List String),
    posts.foldl (posterStep env) (st, att, errs) =
      (st.filter (fun e => ¬ (deleteKeys env posts).contains e.1),
        att ++ posts, errs ++ posterErrors env posts) := by
  induction posts with
  | nil =>
    intro st att errs
    simp [deleteKeys, posterErrors, List.filter_true]
  | cons p rest ih =>
    intro st att errs
    rw [List.foldl_cons]
    cases hd : dispatch env p with
    | none =>
      have hstep : posterStep env (st, att, errs) p =
          (removeScheduledPost st p.platform p.target, att ++ [p], errs) := by
        unfold posterStep
        rw [hd]
      have hdel : stepDeletes env p = true := by unfold stepDeletes; rw [hd]
      have herr : posterErrors env (p :: rest) = posterErrors env rest := by
        unfold posterErrors
        rw [List.filterMap_cons, hd]
      rw [hstep, ih]
      unfold removeScheduledPost deleteItem
      rw [List.filter_filter]
      have hkeys : deleteKeys env (p :: rest) =
          postKey p.platform p.target :: deleteKeys env rest := by
        unfold deleteKeys
        rw [List.filter_cons_of_pos (by simpa using hdel), List.map_cons]
      rw [hkeys, herr]
      have hpt : ∀ e : String × Item,
          ((¬ (deleteKeys env rest).contains e.1 : Bool) &&
            (¬ e.1 = postKey p.platform p.target : Bool)) =
            ((¬ (postKey p.platform p.target :: deleteKeys env rest).contains e.1 : Bool)) := by
        intro e
        by_cases h1 : e.1 = postKey p.platform p.target <;>
          by_cases h2 : (deleteKeys env rest).contains e.1 <;>
            simp [List.contains_cons, h1, h2]
      rw [List.filter_congr (fun e _ => hpt e)]
      simp [List.append_assoc]
    | some r =>
      cases r with
      | error e =>
        have hstep : posterStep env (st, att, errs) p = (st, att ++ [p], errs ++ [e]) := by
          unfold posterStep
          rw [hd]
        have hdel : stepDeletes env p = false := by unfold stepDeletes; rw [hd]
        have herr : posterErrors env (p :: rest) = e :: posterErrors env rest := by
          unfold posterErrors
          rw [List.filterMap_cons, hd]
        have hkeys : deleteKeys env (p :: rest) = deleteKeys env rest := by
          unfold deleteKeys
          rw [List.filter_cons_of_neg (by simp [hdel])]
        rw [hstep, ih, hkeys, herr]
        simp [List.append_assoc]
      | ok u =>
        have hstep : posterStep env (st, att, errs) p =
            (removeScheduledPost st p.platform p.target, att ++ [p], errs) := by
          unfold posterStep
          rw [hd]
        have hdel : stepDeletes env p = true := by unfold stepDeletes; rw [hd]
        have herr : posterErrors env (p :: rest) = posterErrors env rest := by
          unfold posterErrors
          rw [List.filterMap_cons, hd]
        rw [hstep, ih]
        unfold removeScheduledPost deleteItem
        rw [List.filter_filter]
        have hkeys : deleteKeys env (p :: rest) =
            postKey p.platform p.target :: deleteKeys env rest := by
          unfold deleteKeys
          rw [List.filter_cons_of_pos (by simpa using hdel), List.map_cons]
        rw [hkeys, herr]
        have hpt : ∀ e : String × Item,
            ((¬ (deleteKeys env rest).contains e.1 : Bool) &&
              (¬ e.1 = postKey p.platform p.target : Bool)) =
              ((¬ (postKey p.platform p.target :: deleteKeys env rest).contains e.1 : Bool)) := by
          intro e
          by_cases h1 : e.1 = postKey p.platform p.target <;>
            by_cases h2 : (deleteKeys env rest).contains e.1 <;>
              simp [List.contains_cons, h1, h2]
        rw [List.filter_congr (fun e _ => hpt e)]
        simp [List.append_assoc]

/-- For an entry whose platform lowercases to one of the three handled
cases, the delete decision of the loop body coincides with publish
success (the no-default `switch` can only differ on unknown
platforms). -/
theorem stepDeletes_eq_publishOk (env : PosterEnv) (p : PostEntry)
    (h : jsToLower p.platform = "twitter" ∨ jsToLower p.platform = "instagram" ∨
      jsToLower p.platform = "telegram") :
    stepDeletes env p = publishOk env p := by
  unfold stepDeletes publishOk dispatch
  rcases h with h | h | h <;> rw [h]
  · rw [if_pos rfl]
    cases env.makeTweet p.target p.data <;> rfl
  · rw [if_neg (by decide), if_pos rfl]
    cases env.makeInstagram p.target p.data <;> rfl
  · rw [if_neg (by decide), if_neg (by decide), if_pos rfl]
    cases env.makeTelegram p.target p.data <;> rfl

/-- C3: in every Poster delivery cycle over due entries with valid
platforms and pairwise distinct (platform, target) keys, every entry is
attempted even when some publish call throws; the final store is the
initial one minus exactly the keys of the entries whose publish
succeeded; and an entry whose publish threw is still present for the
next cycle. -/
theorem posterHandler_per_entry_isolation (env : PosterEnv) (posts : List PostEntry)
    (s : Store)
    (hplat : ∀ p ∈ posts, jsToLower p.platform = "twitter" ∨
      jsToLower p.platform = "instagram" ∨ jsToLower p.platform = "telegram")
    (hkeys : (posts.map (fun p => postKey p.platform p.target)).Nodup) :
    (posterHandler env posts s).2.1 = posts ∧
    (posterHandler env posts s).1 =
      s.filter (fun e => ¬ (successKeys env posts).contains e.1) ∧
    (∀ p ∈ posts, publishOk env p = false →
      ∀ it, (postKey p.platform p.target, it) ∈ s →
        (postKey p.platform p.target, it) ∈ (posterHandler env posts s).1) := by
  have hdel_succ : deleteKeys env posts = successKeys env posts := by
    unfold deleteKeys successKeys
    rw [List.filter_congr (fun p hp => stepDeletes_eq_publishOk env p (hplat p hp))]
  have hspec := posterHandler_foldl_spec env posts s [] []
  rw [hdel_succ] at hspec
  have hrun : posterHandler env posts s =
      (s.filter (fun e => ¬ (successKeys env posts).contains e.1), posts,
        posterErrors env posts) := by
    unfold posterHandler
    rw [hspec]
    simp
  refine ⟨by rw [hrun], by rw [hrun], ?_⟩
  intro p hp hfail it hit
  rw [hrun]
  apply List.mem_filter.mpr
  refine ⟨hit, ?_⟩
  simp only [decide_eq_true_eq]
  intro hcontains
  have hmem : postKey p.platform p.target ∈ successKeys env posts := by
    simpa using hcontains
  rcases List.mem_map.mp hmem with ⟨p', hp'mem, hp'key⟩
  have hp'posts : p' ∈ posts := List.mem_of_mem_filter hp'mem
  have hp'ok : publishOk env p' = true := List.of_mem_filter hp'mem
  have hpp : p' = p := List.inj_on_of_nodup_map hkeys hp'posts hp hp'key
  rw [hpp] at hp'ok
  rw [hp'ok] at hfail
  simp at hfail

/-- Witness for C3: three due entries, the Instagram publish throws —
both other entries are still attempted (the attempts list is the whole
batch) and the failing entry survives in the store. -/
theorem posterHandler_per_entry_isolation_witness :
    (posterHandler
        ⟨fun _ _ => .ok (), fun _ _ => .error "ig down", fun _ _ => .ok ()⟩
        [⟨"twitter", "trends", .null, 1⟩, ⟨"instagram", "weekly-coin", .null, 2⟩,
          ⟨"telegram", "dailyrecap", .null, 3⟩]
        [(postKey "twitter" "trends", Item.post "twitter" "trends" .null 1),
          (postKey "instagram" "weekly-coin", Item.post "instagram" "weekly-coin" .null 2),
          (postKey "telegram" "dailyrecap", Item.post "telegram" "dailyrecap" .null 3)]).2.1 =
      [⟨"twitter", "trends", .null, 1⟩, ⟨"instagram", "weekly-coin", .null, 2⟩,
        ⟨"telegram", "dailyrecap", .null, 3⟩] ∧
    (postKey "instagram" "weekly-coin", Item.post "instagram" "weekly-coin" .null 2) ∈
      (posterHandler
        ⟨fun _ _ => .ok (), fun _ _ => .error "ig down", fun _ _ => .ok ()⟩
        [⟨"twitter", "trends", .null, 1⟩, ⟨"instagram", "weekly-coin", .null, 2⟩,
          ⟨"telegram", "dailyrecap", .null, 3⟩]
        [(postKey "twitter" "trends", Item.post "twitter" "trends" .null 1),
          (postKey "instagram" "weekly-coin", Item.post "instagram" "weekly-coin" .null 2),
          (postKey "telegram" "dailyrecap", Item.post "telegram" "dailyrecap" .null 3)]).1 := by
  have hplat : ∀ p ∈ [(⟨"twitter", "trends", .null, 1⟩ : PostEntry),
      ⟨"instagram", "weekly-coin", .null, 2⟩, ⟨"telegram", "dailyrecap", .null, 3⟩],
      jsToLower p.platform = "twitter" ∨ jsToLower p.platform = "instagram" ∨
        jsToLower p.platform = "telegram" := by
    intro p hp
    rcases List.mem_cons.mp hp with h | hp2
    · rw [h]; left; rfl
    rcases List.mem_cons.mp hp2 with h | hp3
    · rw [h]; right; left; rfl
    rcases List.mem_cons.mp hp3 with h | hp4
    · rw [h]; right; right; rfl
    · simp at hp4
  have h := posterHandler_per_entry_isolation
    ⟨fun _ _ => .ok (), fun _ _ => .error "ig down", fun _ _ => .ok ()⟩
    [⟨"twitter", "trends", .null, 1⟩, ⟨"instagram", "weekly-coin", .null, 2⟩,
      ⟨"telegram", "dailyrecap", .null, 3⟩]
    [(postKey "twitter" "trends", Item.post "twitter" "trends" .null 1),
      (postKey "instagram" "weekly-coin", Item.post "instagram" "weekly-coin" .null 2),
      (postKey "telegram" "dailyrecap", Item.post "telegram" "dailyrecap" .null 3)]
    hplat (by decide)
  refine ⟨h.1, ?_⟩
  exact h.2.2 ⟨"instagram", "weekly-coin", .null, 2⟩
    (List.mem_cons.mpr (Or.inr (List.mem_cons.mpr (Or.inl rfl)))) rfl
    (Item.post "instagram" "weekly-coin" .null 2)
    (List.mem_cons.mpr (Or.inr (List.mem_cons.mpr (Or.inl rfl))))

/-! ## Claim C7 -/

/-- C7 counterexample: `formatContent` is not idempotent.  On the
five-character content `a` wrapped in two pairs of double quotes, one
application (default options) strips one quote layer, a second strips
another — the results differ. -/
theorem formatContent_not_idempotent_cex :
    formatContent (formatContent ['"', '"', 'a', '"', '"']) ≠
      formatContent ['"', '"', 'a', '"', '"'] := by
  decide

/-- Line-break normalization leaves no carriage return behind. -/
theorem not_mem_crToLf (l : List Char) : '\r' ∉ crToLf l := by
  intro h
  rcases List.mem_map.mp h with ⟨c, _, hc⟩
  by_cases h' : c = '\r' <;> simp [h'] at hc

/-- Unfolding `crlfToLf` on a head that is not a carriage return. -/
theorem crlfToLf_cons_not_cr (c : Char) (xs : List Char) (h : ¬ c = '\r') :
    crlfToLf (c :: xs) = c :: crlfToLf xs := by
  cases xs with
  | nil => rfl
  | cons d rest =>
    show (if c = '\r' ∧ d = '\n' then '\n' :: crlfToLf rest
      else c :: crlfToLf (d :: rest)) = _
    rw [if_neg (fun hh => h hh.1)]

/-- The CRLF pass is the identity on carriage-return-free content. -/
theorem crlfToLf_of_no_cr (l : List Char) (h : '\r' ∉ l) : crlfToLf l = l := by
  cases l with
  | nil => rfl
  | cons c rest =>
    have hc : ¬ c = '\r' := fun hc => h (hc ▸ List.mem_cons_self c rest)
    rw [crlfToLf_cons_not_cr c rest hc,
      crlfToLf_of_no_cr rest (fun hr => h (List.mem_cons_of_mem c hr))]
termination_by l.length

/-- The CR pass is the identity on carriage-return-free content. -/
theorem crToLf_of_no_cr (l : List Char) (h : '\r' ∉ l) : crToLf l = l := by
  induction l with
  | nil => rfl
  | cons c rest ih =>
    have hc : ¬ c = '\r' := fun hc => h (hc ▸ List.mem_cons_self c rest)
    show (if c = '\r' then '\n' else c) :: crToLf rest = _
    rw [if_neg hc, ih (fun hr => h (List.mem_cons_of_mem c hr))]

/-- Collapsing the CRLF pairs introduced by the LF expansion recovers
the original carriage-return-free content. -/
theorem crlfToLf_lfToCrlf (m : List Char) (h : '\r' ∉ m) :
    crlfToLf (lfToCrlf m) = m := by
  induction m with
  | nil => rfl
  | cons c rest ih =>
    have hc : ¬ c = '\r' := fun hc => h (hc ▸ List.mem_cons_self c rest)
    have hrest : '\r' ∉ rest := fun hr => h (List.mem_cons_of_mem c hr)
    by_cases hn : c = '\n'
    · subst hn
      have hstep : lfToCrlf ('\n' :: rest) = '\r' :: '\n' :: lfToCrlf rest := by
        unfold lfToCrlf
        rw [List.flatMap_cons]
        rfl
      rw [hstep]
      show (if ('\r' : Char) = '\r' ∧ ('\n' : Char) = '\n' then '\n' :: crlfToLf (lfToCrlf rest)
        else _) = _
      rw [if_pos ⟨rfl, rfl⟩, ih hrest]
    · have hstep : lfToCrlf (c :: rest) = c :: lfToCrlf rest := by
        unfold lfToCrlf
        rw [List.flatMap_cons, if_neg hn]
        rfl
      rw [hstep, crlfToLf_cons_not_cr c _ hc, ih hrest]

/-- C7 amended support: `normalizeLineBreaks` is idempotent for both
line-break styles. -/
theorem normalizeLineBreaks_idem (st : LineBreakStyle) (l : List Char) :
    normalizeLineBreaks st (normalizeLineBreaks st l) = normalizeLineBreaks st l := by
  have hnocr : '\r' ∉ crToLf (crlfToLf l) := not_mem_crToLf _
  cases st with
  | lf =>
    show crToLf (crlfToLf (crToLf (crlfToLf l))) = crToLf (crlfToLf l)
    rw [crlfToLf_of_no_cr _ hnocr, crToLf_of_no_cr _ hnocr]
  | crlf =>
    show lfToCrlf (crToLf (crlfToLf (lfToCrlf (crToLf (crlfToLf l))))) =
      lfToCrlf (crToLf (crlfToLf l))
    rw [crlfToLf_lfToCrlf _ hnocr, crToLf_of_no_cr _ hnocr]

/-- A Boolean prefix test bounds the length. -/
theorem isPrefixOf_length_le {pat l : List Char} (h : pat.isPrefixOf l = true) :
    pat.length ≤ l.length :=
  (List.isPrefixOf_iff_prefix.mp h).length_le

/-- A single global replace never lengthens the content when the
replacement is no longer than the pattern. -/
theorem replaceAllSeqF_length_le (pat repl : List Char) (hr : repl.length ≤ pat.length) :
    ∀ (fuel : ℕ) (l : List Char), (replaceAllSeqF pat repl fuel l).length ≤ l.length := by
  intro fuel
  induction fuel with
  | zero => intro l; exact le_refl _
  | succ n ih =>
    intro l
    cases l with
    | nil => exact le_refl _
    | cons c rest =>
      show (if pat ≠ [] ∧ pat.isPrefixOf (c :: rest) then
          repl ++ replaceAllSeqF pat repl n ((c :: rest).drop pat.length)
        else c :: replaceAllSeqF pat repl n rest).length ≤ (c :: rest).length
      split_ifs with hcond
      · obtain ⟨hne, hpre⟩ := hcond
        have hplen : pat.length ≤ (c :: rest).length := isPrefixOf_length_le hpre
        have hrec := ih ((c :: rest).drop pat.length)
        simp only [List.length_append, List.length_drop, List.length_cons] at hrec hplen ⊢
        omega
      · have hrec := ih rest
        simp only [List.length_cons]
        omega

/-- A single global replace strictly shortens the content when the
pattern occurs and the replacement is strictly shorter. -/
theorem replaceAllSeqF_length_lt (pat repl : List Char) (hne : pat ≠ [])
    (hr : repl.length < pat.length) :
    ∀ (fuel : ℕ) (l : List Char), l.length < fuel → containsSeqB pat l = true →
      (replaceAllSeqF pat repl fuel l).length < l.length := by
  intro fuel
  induction fuel with
  | zero => intro l hl; omega
  | succ n ih =>
    intro l hl hc
    cases l with
    | nil =>
      have : pat.isEmpty = true := hc
      rw [List.isEmpty_iff] at this
      exact absurd this hne
    | cons c rest =>
      show (if pat ≠ [] ∧ pat.isPrefixOf (c :: rest) then
          repl ++ replaceAllSeqF pat repl n ((c :: rest).drop pat.length)
        else c :: replaceAllSeqF pat repl n rest).length < (c :: rest).length
      split_ifs with hcond
      · obtain ⟨_, hpre⟩ := hcond
        have hplen : pat.length ≤ (c :: rest).length := isPrefixOf_length_le hpre
        have hrec := replaceAllSeqF_length_le pat repl (le_of_lt hr) n
          ((c :: rest).drop pat.length)
        simp only [List.length_append, List.length_drop, List.length_cons] at hrec hplen ⊢
        have hppos : 0 < pat.length := List.length_pos.mpr hne
        omega
      · have hpre : ¬ pat.isPrefixOf (c :: rest) = true := fun hp => hcond ⟨hne, hp⟩
        have hrest : containsSeqB pat rest = true := by
          have hsplit : (pat.isPrefixOf (c :: rest) || containsSeqB pat rest) = true := hc
          rcases Bool.or_eq_true_iff.mp hsplit with hp | h
          · exact absurd hp hpre
          · exact h
        have hrec := ih rest (by simp only [List.length_cons] at hl; omega) hrest
        simp only [List.length_cons]
        omega

/-- After the collapse loop finishes (with fuel exceeding the length),
no triple break remains. -/
theorem collapseTripleF_no_triple (st : LineBreakStyle) :
    ∀ (fuel : ℕ) (l : List Char), l.length < fuel →
      containsSeqB (tripleBreak st) (collapseTripleF st fuel l) = false := by
  have hne : tripleBreak st ≠ [] := by cases st <;> simp [tripleBreak, breakChars]
  have hlt : (doubleBreak st).length < (tripleBreak st).length := by
    cases st <;> simp [tripleBreak, doubleBreak, breakChars]
  intro fuel
  induction fuel with
  | zero => intro l hl; omega
  | succ n ih =>
    intro l hl
    show containsSeqB (tripleBreak st)
      (if containsSeqB (tripleBreak st) l then
        collapseTripleF st n (replaceAllSeq (tripleBreak st) (doubleBreak st) l)
      else l) = false
    split_ifs with hc
    · apply ih
      have hlen := replaceAllSeqF_length_lt (tripleBreak st) (doubleBreak st) hne hlt
        (l.length + 1) l (by omega) hc
      have : replaceAllSeq (tripleBreak st) (doubleBreak st) l =
          replaceAllSeqF (tripleBreak st) (doubleBreak st) (l.length + 1) l := rfl
      rw [this]
      omega
    · cases h : containsSeqB (tripleBreak st) l with
      | false => rfl
      | true => exact absurd h hc

/-- C7 amended support: the triple-break collapse loop is idempotent —
its result contains no triple break, so a second run exits at once. -/
theorem collapseTriple_idem (st : LineBreakStyle) (l : List Char) :
    collapseTriple st (collapseTriple st l) = collapseTriple st l := by
  have hpost := collapseTripleF_no_triple st (l.length + 1) l (by omega)
  unfold collapseTriple
  show (if containsSeqB (tripleBreak st) (collapseTripleF st (l.length + 1) l) then _
    else collapseTripleF st (l.length + 1) l) = collapseTripleF st (l.length + 1) l
  rw [if_neg (by rw [hpost]; simp)]

/-- One-step unfolding of the space-collapsing scanner. -/
theorem collapseSpacesAux_cons (inRun : Bool) (c : Char) (rest : List Char) :
    collapseSpacesAux inRun (c :: rest) =
      if isST c then
        if inRun then collapseSpacesAux true rest
        else if rest.head?.elim false isST then ' ' :: collapseSpacesAux true rest
        else c :: collapseSpacesAux false rest
      else c :: collapseSpacesAux false rest := rfl

/-- Inside a replaced run, the scanner just skips the remaining
spaces/tabs of the run. -/
theorem collapseSpacesAux_skip (l : List Char) :
    collapseSpacesAux true l = collapseSpacesAux false (l.dropWhile isST) := by
  induction l with
  | nil => rfl
  | cons c rest ih =>
    by_cases h : isST c = true
    · rw [collapseSpacesAux_cons, if_pos h, if_pos rfl, List.dropWhile_cons_of_pos h, ih]
    · rw [List.dropWhile_cons_of_neg (by simpa using h), collapseSpacesAux_cons, if_neg h,
        collapseSpacesAux_cons, if_neg h]

/-- The scanner keeps a non-space head. -/
theorem collapseSpacesAux_head_not_st (c : Char) (rest : List Char) (h : isST c = false) :
    collapseSpacesAux false (c :: rest) = c :: collapseSpacesAux false rest := by
  rw [collapseSpacesAux_cons, if_neg (by simp [h])]

/-- The head of a `dropWhile` result fails the predicate. -/
theorem dropWhile_head_false (p : Char → Bool) (l : List Char) :
    ∀ c, (l.dropWhile p).head? = some c → p c = false := by
  induction l with
  | nil => intro c hc; simp at hc
  | cons d rest ih =>
    intro c hc
    by_cases h : p d = true
    · rw [List.dropWhile_cons_of_pos h] at hc
      exact ih c hc
    · rw [List.dropWhile_cons_of_neg (by simpa using h)] at hc
      simp only [List.head?_cons, Option.some.injEq] at hc
      rw [← hc]
      simpa using h

/-- The output of the space-collapsing pass never holds two adjacent
spaces/tabs. -/
theorem collapseSpacesAux_chain (l : List Char) :
    List.Chain' (fun a b => ¬ (isST a = true ∧ isST b = true))
      (collapseSpacesAux false l) := by
  match l with
  | [] => simp [collapseSpacesAux]
  | c :: rest =>
    by_cases hc : isST c = true
    · by_cases hd : rest.head?.elim false isST = true
      · rw [collapseSpacesAux_cons, if_pos hc, if_neg (by simp), if_pos hd,
          collapseSpacesAux_skip]
        rw [List.chain'_cons']
        refine ⟨?_, collapseSpacesAux_chain (rest.dropWhile isST)⟩
        intro y hy
        intro ⟨_, hy2⟩
        cases hdw : rest.dropWhile isST with
        | nil => rw [hdw] at hy; simp [collapseSpacesAux] at hy
        | cons e es =>
          have he : isST e = false := dropWhile_head_false isST rest e (by rw [hdw]; rfl)
          rw [hdw, collapseSpacesAux_head_not_st e es he] at hy
          simp only [List.head?_cons, Option.mem_def, Option.some.injEq] at hy
          rw [← hy] at hy2
          rw [he] at hy2
          exact Bool.noConfusion hy2
      · rw [collapseSpacesAux_cons, if_pos hc, if_neg (by simp), if_neg hd]
        rw [List.chain'_cons']
        refine ⟨?_, collapseSpacesAux_chain rest⟩
        intro y hy
        intro ⟨_, hy2⟩
        cases hrest : rest with
        | nil => rw [hrest] at hy; simp [collapseSpacesAux] at hy
        | cons e es =>
          have he : isST e = false := by
            rw [hrest] at hd
            simpa using hd
          rw [hrest, collapseSpacesAux_head_not_st e es he] at hy
          simp only [List.head?_cons, Option.mem_def, Option.some.injEq] at hy
          rw [← hy] at hy2
          rw [he] at hy2
          exact Bool.noConfusion hy2
    · rw [collapseSpacesAux_head_not_st c rest (by simpa using hc)]
      rw [List.chain'_cons']
      refine ⟨?_, collapseSpacesAux_chain rest⟩
      intro y _
      intro ⟨hy1, _⟩
      exact hc hy1
termination_by l.length
decreasing_by
  · have := (List.dropWhile_suffix (l := rest) isST).length_le
    simp only [List.length_cons]
    omega
  · simp only [List.length_cons]; omega
  · simp only [List.length_cons]; omega

/-- The space-collapsing pass is the identity on content with no two
adjacent spaces/tabs. -/
theorem collapseSpacesAux_id_of_chain (l : List Char)
    (h : List.Chain' (fun a b => ¬ (isST a = true ∧ isST b = true)) l) :
    collapseSpacesAux false l = l := by
  induction l with
  | nil => rfl
  | cons c rest ih =>
    have hr := h.tail
    simp only [List.tail_cons] at hr
    by_cases hc : isST c = true
    · have hd : rest.head?.elim false isST = false := by
        cases hrest : rest with
        | nil => rfl
        | cons e es =>
          have hR : ¬ (isST c = true ∧ isST e = true) :=
            (List.chain'_cons.mp (hrest ▸ h)).1
          have he : isST e = false := by
            cases hh : isST e with
            | false => rfl
            | true => exact absurd ⟨hc, hh⟩ hR
          simp [he]
      rw [collapseSpacesAux_cons, if_pos hc, if_neg (by simp), if_neg (by simp [hd]),
        ih hr]
    · rw [collapseSpacesAux_head_not_st c rest (by simpa using hc), ih hr]

/-- C7 amended support: the repeated-space collapse is idempotent. -/
theorem collapseSpaces_idem (l : List Char) :
    collapseSpaces (collapseSpaces l) = collapseSpaces l :=
  collapseSpacesAux_id_of_chain _ (collapseSpacesAux_chain l)

/-- `dropWhile` is idempotent. -/
theorem dropWhile_dropWhile_self (p : Char → Bool) (l : List Char) :
    (l.dropWhile p).dropWhile p = l.dropWhile p := by
  induction l with
  | nil => rfl
  | cons c rest ih =>
    by_cases h : p c = true
    · rw [List.dropWhile_cons_of_pos h]; exact ih
    · rw [List.dropWhile_cons_of_neg (by simpa using h),
        List.dropWhile_cons_of_neg (by simpa using h)]

/-- `dropWhile` is the identity when the head already fails the
predicate. -/
theorem dropWhile_eq_self_of_head (p : Char → Bool) (l : List Char)
    (h : ∀ c, l.head? = some c → p c = false) : l.dropWhile p = l := by
  cases l with
  | nil => rfl
  | cons c rest =>
    rw [List.dropWhile_cons_of_neg (by simp [h c rfl])]

/-- C7 amended support: `trim` is idempotent. -/
theorem jsTrim_idem (l : List Char) : jsTrim (jsTrim l) = jsTrim l := by
  unfold jsTrim
  have hstep1 : ((l.dropWhile isJsSpace).reverse.dropWhile isJsSpace).reverse.dropWhile
      isJsSpace = ((l.dropWhile isJsSpace).reverse.dropWhile isJsSpace).reverse := by
    apply dropWhile_eq_self_of_head
    intro c hc
    have hsuf : (l.dropWhile isJsSpace).reverse.dropWhile isJsSpace <:+
        (l.dropWhile isJsSpace).reverse := List.dropWhile_suffix isJsSpace
    have hpre : ((l.dropWhile isJsSpace).reverse.dropWhile isJsSpace).reverse <+:
        l.dropWhile isJsSpace := by
      have h1 := List.reverse_prefix.mpr hsuf
      rw [List.reverse_reverse] at h1
      exact h1
    obtain ⟨t, ht⟩ := hpre
    have huh : (l.dropWhile isJsSpace).head? = some c := by
      rw [← ht]
      cases hvr : ((l.dropWhile isJsSpace).reverse.dropWhile isJsSpace).reverse with
      | nil => rw [hvr] at hc; simp at hc
      | cons d ds =>
        rw [hvr] at hc
        simp only [List.head?_cons, Option.some.injEq] at hc
        simp [hc]
    exact dropWhile_head_false isJsSpace l c huh
  rw [hstep1, List.reverse_reverse, dropWhile_dropWhile_self]

/-- C7 amended: `formatContent` as a whole is not idempotent (see the
counterexample), but the individual whitespace-normalization passes it
is built from are: line-break normalization, the triple-break collapse
loop, the repeated-space/tab collapse, and the outer trim are each
idempotent, for both line-break styles and every content. -/
theorem formatContent_passes_idempotent (st : LineBreakStyle) (l : List Char) :
    normalizeLineBreaks st (normalizeLineBreaks st l) = normalizeLineBreaks st l ∧
    collapseTriple st (collapseTriple st l) = collapseTriple st l ∧
    collapseSpaces (collapseSpaces l) = collapseSpaces l ∧
    jsTrim (jsTrim l) = jsTrim l :=
  ⟨normalizeLineBreaks_idem st l, collapseTriple_idem st l, collapseSpaces_idem l,
    jsTrim_idem l⟩

end IranCrypto
